import Mathlib

/-!
Verification of the `lib_textwrap` text-formatting utility.

The development shallowly embeds the program's Python sources
(`formatter.py`, `file_handler.py`, `cli.py`) in Lean.  Python strings are
modelled as `List Char` (`Str`), Python integers as `Int`, raised exceptions
as `Except PyExc`.  The formatter delegates to the standard `textwrap`
module, so the relevant parts of `textwrap` (`TextWrapper._munge_whitespace`,
`_split`, `_handle_long_word`, `_wrap_chunks`, `wrap`, `fill`, module-level
`shorten` and `dedent`) are embedded as well, following the CPython
implementation.  Character classes (`\w`, whitespace, lowercase) are modelled
over their ASCII meaning; the embedded semantics agrees with CPython on ASCII
text.
-/

/-- Python strings are modelled as lists of characters. -/
abbrev Str := List Char

/-- The characters of `string.whitespace` / `textwrap._whitespace`
(`'\t\n\x0b\x0c\r '`), which is also the ASCII part of the set stripped by
`str.strip()` and matched by `\s`. -/
def isPySpace (c : Char) : Bool :=
  c = ' ' || c = '\t' || c = '\n' || c = '\x0b' || c = '\x0c' || c = '\r'

/-- Python `str.lstrip()`. -/
def pyLStrip (s : Str) : Str := s.dropWhile isPySpace

/-- Python `str.rstrip()`. -/
def pyRStrip (s : Str) : Str := (s.reverse.dropWhile isPySpace).reverse

/-- Python `str.strip()`. -/
def pyStrip (s : Str) : Str := pyRStrip (pyLStrip s)

/-- Sum of the lengths of a list of strings. -/
def lensum (l : List Str) : Nat := (l.map List.length).sum

/-- Worker for `pySplitOn`: leftmost non-overlapping scan for `sep`,
accumulating the current piece in `acc`.  `fuel` bounds the recursion; it is
always called with enough fuel (`length + 1`) to finish. -/
def splitOnGo (sep : Str) : Nat → Str → Str → List Str
  | 0, acc, rest => [acc ++ rest]
  | fuel + 1, acc, rest =>
    if sep.isPrefixOf rest then acc :: splitOnGo sep fuel [] (rest.drop sep.length)
    else
      match rest with
      | [] => [acc]
      | c :: r => splitOnGo sep fuel (acc ++ [c]) r

/-- Python `str.split(sep)` for a non-empty separator: splits at the leftmost
non-overlapping occurrences of `sep`; `"".split(sep) == [""]`. -/
def pySplitOn (sep : Str) (s : Str) : List Str :=
  splitOnGo sep (s.length + 1) [] s

/-- Worker for `pySplitWS`. -/
def splitWSGo : Nat → Str → List Str
  | 0, rest => if rest.isEmpty then [] else [rest]
  | fuel + 1, rest =>
    match rest with
    | [] => []
    | c :: _ =>
      if isPySpace c then splitWSGo fuel (rest.dropWhile isPySpace)
      else (rest.takeWhile (fun d => !isPySpace d)) ::
        splitWSGo fuel (rest.dropWhile (fun d => !isPySpace d))

/-- Python `str.split()` with no argument: maximal runs of non-whitespace,
with leading/trailing/repeated whitespace ignored. -/
def pySplitWS (s : Str) : List Str := splitWSGo (s.length + 1) s

/-- Worker for `pyExpandTabs`; `col` is the current column. -/
def expandTabsGo (tabsize : Nat) : Nat → Str → Str
  | _, [] => []
  | col, c :: rest =>
    if c = '\t' then
      if tabsize > 0 then
        List.replicate (tabsize - col % tabsize) ' ' ++
          expandTabsGo tabsize (col + (tabsize - col % tabsize)) rest
      else expandTabsGo tabsize col rest
    else if c = '\n' || c = '\r' then c :: expandTabsGo tabsize 0 rest
    else c :: expandTabsGo tabsize (col + 1) rest

/-- Python `str.expandtabs(tabsize)`: tabs advance to the next multiple of
`tabsize`; `\n` and `\r` reset the column. -/
def pyExpandTabs (tabsize : Nat) (s : Str) : Str := expandTabsGo tabsize 0 s

/-- Longest common prefix of two strings (the value computed by the margin
loop of `textwrap.dedent`). -/
def lcp : Str → Str → Str
  | a :: as, b :: bs => if a = b then a :: lcp as bs else []
  | _, _ => []

/-- Python `str` comparison `a <= b`: lexicographic on code points. -/
def strLe : Str → Str → Bool
  | [], _ => true
  | _ :: _, [] => false
  | a :: as, b :: bs => if a = b then strLe as bs else decide (a < b)

/-- Stable insertion used to model Python `sorted` on strings. -/
def insertStr (x : Str) : List Str → List Str
  | [] => [x]
  | y :: ys => if strLe x y then x :: y :: ys else y :: insertStr x ys

/-- Model of Python `sorted` on strings (insertion sort; `sorted` is a stable
comparison sort, and on a decidable total order the result is the same list).
-/
def sortStr : List Str → List Str
  | [] => []
  | x :: xs => insertStr x (sortStr xs)

section SanityChecks

example : pySplitOn ['\n', '\n'] ("a\n\n\nb".toList) = ["a".toList, "\nb".toList] := by decide
example : pySplitOn ['\n', '\n'] [] = [[]] := by decide
example : pySplitWS ("  a  bc ".toList) = ["a".toList, "bc".toList] := by decide
example : pyExpandTabs 8 ("a\tb".toList) = "a       b".toList := by decide
example : pyStrip (" a ".toList) = ['a'] := by decide
example : sortStr ["b".toList, "a".toList, "ab".toList] = ["a".toList, "ab".toList, "b".toList] := by decide

end SanityChecks

/-!
## The `textwrap.TextWrapper` word splitter

`TextWrapper._split` splits munged text with `wordsep_re` (when
`break_on_hyphens` is true) or `wordsep_simple_re` (otherwise) and drops empty
chunks.  `wordsep_re` is an alternation of (1) a whitespace run, (2) an
em-dash run (two or more hyphens) between word-punctuation and a word
character, and (3) a shortest non-whitespace run ending at a hyphenation
point, at the end of the non-whitespace run, or before an em-dash.  The
functions below implement that scan operationally; `pre` is the reversed list
of characters preceding the scan position, giving the regex lookbehinds
access to earlier text.
-/

/-- Regex `\w` (ASCII): letters, digits and underscore. -/
def isWordChar (c : Char) : Bool := c.isAlphanum || c = '_'

/-- Regex `[^\d\W]` (ASCII): word characters that are not digits. -/
def isLetterChar (c : Char) : Bool := c.isAlpha || c = '_'

/-- The `word_punct` class `[\w!"\'&.,?]` of `wordsep_re`. -/
def isWordPunct (c : Char) : Bool :=
  isWordChar c || c = '!' || c = '"' || c = '\'' || c = '&' || c = '.' || c = ',' || c = '?'

/-- Character at signed offset `i` from the start of `rest`; negative offsets
index into the reversed preceding text `pre` (regex lookbehind). -/
def charAt (pre rest : Str) (i : Int) : Option Char :=
  if i < 0 then pre.get? (Int.toNat (-i - 1)) else rest.get? i.toNat

/-- Does the optional character satisfy `p`? -/
def optIs (p : Char → Bool) : Option Char → Bool
  | some c => p c
  | none => false

/-- Length of the maximal hyphen run of `rest` starting at offset `n`. -/
def hyphenRunAt (rest : Str) (n : Nat) : Nat :=
  ((rest.drop n).takeWhile (fun c => c = '-')).length

/-- The "hyphenated word" alternative of `wordsep_re`:
`-(?:(?<=lt{2}-)|(?<=lt-lt-))(?=lt-?lt)` succeeding with the hyphen at offset
`n` as the last consumed character. -/
def hyphenBreakAt (pre rest : Str) (n : Nat) : Bool :=
  charAt pre rest n = some '-' &&
  ((optIs isLetterChar (charAt pre rest ((n : Int) - 2)) &&
      optIs isLetterChar (charAt pre rest ((n : Int) - 1))) ||
   (optIs isLetterChar (charAt pre rest ((n : Int) - 3)) &&
      charAt pre rest ((n : Int) - 2) = some '-' &&
      optIs isLetterChar (charAt pre rest ((n : Int) - 1)))) &&
  optIs isLetterChar (charAt pre rest ((n : Int) + 1)) &&
  (optIs isLetterChar (charAt pre rest ((n : Int) + 2)) ||
   (charAt pre rest ((n : Int) + 2) = some '-' &&
      optIs isLetterChar (charAt pre rest ((n : Int) + 3))))

/-- The "end of word" alternative `(?=\s|\Z)` at offset `n`. -/
def wordEndAt (pre rest : Str) (n : Nat) : Bool :=
  match charAt pre rest (n : Int) with
  | none => true
  | some c => isPySpace c

/-- The "em-dash lookahead" alternative `(?<=wp)(?=-{2,}\w)` at offset `n`. -/
def emDashAheadAt (pre rest : Str) (n : Nat) : Bool :=
  optIs isWordPunct (charAt pre rest ((n : Int) - 1)) &&
  hyphenRunAt rest n ≥ 2 &&
  optIs isWordChar (charAt pre rest ((n : Int) + hyphenRunAt rest n))

/-- Scan for the end of a word chunk: the shortest `n ≥ 1` (non-greedy
`[^\s]+?`) whose tail alternative succeeds, in the regex's alternative order.
A successful hyphenation alternative consumes its hyphen, hence `n + 1`. -/
def wordBreakGo (pre rest : Str) : Nat → Nat → Nat
  | 0, n => n
  | fuel + 1, n =>
    if hyphenBreakAt pre rest n then n + 1
    else if wordEndAt pre rest n then n
    else if emDashAheadAt pre rest n then n
    else wordBreakGo pre rest fuel (n + 1)

/-- One word chunk's length, starting the non-greedy scan at 1. -/
def wordBreakLen (pre rest : Str) : Nat :=
  wordBreakGo pre rest rest.length 1

/-- Worker for `wordsepSplit`: emits chunks left to right.  Each step emits a
non-empty chunk and recurses on the rest; `fuel` (initially the text length)
bounds the recursion and is always sufficient. -/
def wordsepGo : Nat → Str → Str → List Str
  | 0, _, rest => if rest.isEmpty then [] else [rest]
  | fuel + 1, pre, rest =>
    match rest with
    | [] => []
    | c :: _ =>
      if isPySpace c then
        let run := rest.takeWhile isPySpace
        run :: wordsepGo fuel (run.reverse ++ pre) (rest.drop run.length)
      else
        let hrun := rest.takeWhile (fun d => d = '-')
        if optIs isWordPunct pre.head? && hrun.length ≥ 2 &&
            optIs isWordChar (rest.get? hrun.length) then
          hrun :: wordsepGo fuel (hrun.reverse ++ pre) (rest.drop hrun.length)
        else
          let n := wordBreakLen pre rest
          rest.take n :: wordsepGo fuel ((rest.take n).reverse ++ pre) (rest.drop n)

/-- `TextWrapper.wordsep_re.split` followed by dropping empty strings: the
scan produces exactly the non-empty matches, which tile the input. -/
def wordsepSplit (s : Str) : List Str := wordsepGo s.length [] s

/-- Worker for `simpleSplit`: alternating maximal runs of whitespace and
non-whitespace characters. -/
def simpleSplitGo : Nat → Str → List Str
  | 0, rest => if rest.isEmpty then [] else [rest]
  | fuel + 1, rest =>
    match rest with
    | [] => []
    | c :: _ =>
      let run := rest.takeWhile (fun d => isPySpace d = isPySpace c)
      run :: simpleSplitGo fuel (rest.drop run.length)

/-- `TextWrapper.wordsep_simple_re.split` followed by dropping empty strings:
maximal whitespace runs are separators and are kept (capturing group). -/
def simpleSplit (s : Str) : List Str := simpleSplitGo s.length s

section SplitterChecks

example : wordsepSplit ("hello world".toList) =
    ["hello".toList, " ".toList, "world".toList] := by decide
example : wordsepSplit ("what-d'you-call-it.".toList) =
    ["what-d'you-".toList, "call-".toList, "it.".toList] := by decide
example : wordsepSplit ("foo--bar".toList) =
    ["foo".toList, "--".toList, "bar".toList] := by decide
example : wordsepSplit ("a-b c".toList) = ["a-b".toList, " ".toList, "c".toList] := by decide
example : wordsepSplit ("pre-war".toList) = ["pre-".toList, "war".toList] := by decide
example : simpleSplit ("a  b-c ".toList) =
    ["a".toList, "  ".toList, "b-c".toList, " ".toList] := by decide

end SplitterChecks

/-!
## `textwrap.TextWrapper` wrapping machinery

`WrapCfg` collects the `TextWrapper.__init__` parameters (field defaults are
the constructor defaults).  Exceptions raised by the Python code are modelled
with `Except PyExc`.
-/

/-- Python exceptions raised by the program, distinguishable by kind. -/
inductive PyExc
  | valueError (msg : String)
  | fileNotFoundError (msg : String)
  | notADirectoryError (msg : String)
  | permissionError (msg : String)
  | typeError (msg : String)
  | osError (msg : String)
deriving DecidableEq

deriving instance DecidableEq for Except

/-- The configuration of a `textwrap.TextWrapper` (constructor defaults). -/
structure WrapCfg where
  width : Int
  initialIndent : Str := []
  subsequentIndent : Str := []
  expandTabs : Bool := true
  replaceWhitespace : Bool := true
  fixSentenceEndings : Bool := false
  breakLongWords : Bool := true
  dropWhitespace : Bool := true
  breakOnHyphens : Bool := true
  tabsize : Nat := 8
  maxLines : Option Int := none
  placeholder : Str := " [...]".toList
deriving DecidableEq

/-- `str.translate(unicode_whitespace_trans)`: each character of
`textwrap._whitespace` becomes a space. -/
def wsToSpace (c : Char) : Char := if isPySpace c then ' ' else c

/-- `TextWrapper._munge_whitespace`. -/
def mungeWhitespace (cfg : WrapCfg) (text : Str) : Str :=
  let t1 := if cfg.expandTabs then pyExpandTabs cfg.tabsize text else text
  if cfg.replaceWhitespace then t1.map wsToSpace else t1

/-- `TextWrapper._split`: chunk the munged text, choosing the hyphen-aware
or the simple splitter by `break_on_hyphens`. -/
def twSplit (cfg : WrapCfg) (text : Str) : List Str :=
  if cfg.breakOnHyphens then wordsepSplit text else simpleSplit text

/-- The mandatory `[a-z][.!?]` part of `sentence_end_re`, on reversed text. -/
def sentEndCore : Str → Bool
  | p :: l :: _ => (p = '.' || p = '!' || p = '?') && 'a' ≤ l && l ≤ 'z'
  | _ => false

/-- `sentence_end_re.search`: a lowercase letter, sentence punctuation and an
optional quote at the end of the chunk. -/
def endsSentence (ch : Str) : Bool :=
  sentEndCore ch.reverse ||
  (match ch.reverse with
   | q :: r => (q = '"' || q = '\'') && sentEndCore r
   | [] => false)

/-- `TextWrapper._fix_sentence_endings`: widen the single-space chunk after a
sentence end to two spaces, skipping the widened chunk. -/
def fixSentenceEndingsGo : Nat → List Str → List Str
  | 0, chunks => chunks
  | fuel + 1, chunks =>
    match chunks with
    | ch :: s :: rest =>
      if s = [' '] && endsSentence ch then ch :: [' ', ' '] :: fixSentenceEndingsGo fuel rest
      else ch :: fixSentenceEndingsGo fuel (s :: rest)
    | other => other

/-- Pop chunks from the front while they fit in the remaining width
(the inner `while chunks:` loop of `_wrap_chunks`); returns the taken
chunks in order and the remaining chunks. -/
def takeFitsGo (widthL : Int) (accRev : List Str) (curLen : Nat) :
    List Str → List Str × List Str
  | [] => (accRev.reverse, [])
  | ch :: rest =>
    if (curLen + ch.length : Int) ≤ widthL then
      takeFitsGo widthL (ch :: accRev) (curLen + ch.length) rest
    else (accRev.reverse, ch :: rest)

/-- Worker for `rfindHyphen`: forward scan remembering the last hyphen
index. -/
def rfindHyphenGo : Str → Nat → Option Nat → Option Nat
  | [], _, acc => acc
  | c :: r, i, acc => rfindHyphenGo r (i + 1) (if c = '-' then some i else acc)

/-- Index of the last `'-'` in `s` (`str.rfind`), or `none`. -/
def rfindHyphen (s : Str) : Option Nat := rfindHyphenGo s 0 none

/-- `TextWrapper._handle_long_word`.  `widthL` is the local line width
(`self.width - len(indent)`); the head of `chunks` is the long word.  When
`width >= 1` the slice bound `space_left = widthL - len(cur_line)` is
non-negative because `takeFitsGo` keeps the current length at most `widthL`,
so taking `spaceLeft.toNat` characters matches the Python slice. -/
def handleLongWord (cfg : WrapCfg) (widthL : Int) (curLine : List Str) :
    List Str → List Str × List Str
  | [] => (curLine, [])
  | chunk :: rest =>
    let spaceLeft : Int := if widthL < 1 then 1 else widthL - lensum curLine
    if cfg.breakLongWords then
      let e0 : Nat := spaceLeft.toNat
      let e : Nat :=
        if cfg.breakOnHyphens && (chunk.length : Int) > spaceLeft then
          match rfindHyphen (chunk.take e0) with
          | some h =>
            if h > 0 && (chunk.take h).any (fun c => c ≠ '-') then h + 1 else e0
          | none => e0
        else e0
      (curLine ++ [chunk.take e], chunk.drop e :: rest)
    else if curLine.isEmpty then ([chunk], rest)
    else (curLine, chunk :: rest)

/-- Drop a trailing all-whitespace chunk from the current line
(`if drop_whitespace and cur_line and cur_line[-1].strip() == ''`). -/
def dropTrailingWs (cfg : WrapCfg) (curLine : List Str) : List Str :=
  if cfg.dropWhitespace then
    match curLine.getLast? with
    | some last => if (pyStrip last).isEmpty then curLine.dropLast else curLine
    | none => curLine
  else curLine

/-- The truncation loop of `_wrap_chunks` (`max_lines` reached): drop chunks
from the end of the current line until the placeholder fits after a
non-whitespace chunk; if the line empties, retarget the previous line or emit
the bare stripped placeholder (the `while ... else` block).  The current line
is passed reversed; `linesRev` holds the emitted lines in reverse. -/
def truncToFit (cfg : WrapCfg) (indent : Str) (widthL : Int) (linesRev : List Str) :
    List Str → List Str
  | [] =>
    (match linesRev with
     | prev :: restL =>
       if ((pyRStrip prev).length + cfg.placeholder.length : Int) ≤ cfg.width then
         (pyRStrip prev ++ cfg.placeholder) :: restL
       else (indent ++ pyLStrip cfg.placeholder) :: linesRev
     | [] => (indent ++ pyLStrip cfg.placeholder) :: linesRev)
  | last :: revInit =>
    if !(pyStrip last).isEmpty &&
        (lensum (last :: revInit) + cfg.placeholder.length : Int) ≤ widthL then
      (indent ++ (last :: revInit).reverse.flatten ++ cfg.placeholder) :: linesRev
    else truncToFit cfg indent widthL linesRev revInit

/-- Result of one iteration of the outer `while chunks:` loop. -/
inductive IterOut
  | cont (chunks : List Str) (linesRev : List Str)
  | stop (linesRev : List Str)

/-- Is the head chunk all-whitespace (`chunks[-1].strip() == ''` on the
reversed chunk list)? -/
def headBlank : List Str → Bool
  | ch :: _ => (pyStrip ch).isEmpty
  | [] => false

/-- The inner `while chunks:` loop of `_wrap_chunks` followed by the
over-long head-chunk check: greedily take fitting chunks, then apply
`_handle_long_word` when the next chunk exceeds the local width.  Returns
the current line and the remaining chunks. -/
def wrapFill2 (cfg : WrapCfg) (widthL : Int) (chunks1 : List Str) :
    List Str × List Str :=
  let tf := takeFitsGo widthL [] 0 chunks1
  match tf.2 with
  | ch :: _ =>
    if (ch.length : Int) > widthL then handleLongWord cfg widthL tf.1 tf.2
    else (tf.1, tf.2)
  | [] => (tf.1, tf.2)

/-- One iteration of the outer loop of `_wrap_chunks` (`chunks` non-empty):
choose the indent, optionally drop a leading whitespace chunk, fill the
current line, handle an over-long head chunk, drop trailing whitespace, and
emit the line or enter the `max_lines` truncation. -/
def wrapIter (cfg : WrapCfg) (linesRev : List Str) (chunks : List Str) : IterOut :=
  let indent := if linesRev.isEmpty then cfg.initialIndent else cfg.subsequentIndent
  let widthL : Int := cfg.width - indent.length
  let chunks1 :=
    if cfg.dropWhitespace && headBlank chunks && !linesRev.isEmpty then
      chunks.tail
    else chunks
  let hl := wrapFill2 cfg widthL chunks1
  let curLine := dropTrailingWs cfg hl.1
  let rest2 := hl.2
  if curLine.isEmpty then .cont rest2 linesRev
  else
    let okPlain :=
      match cfg.maxLines with
      | none => true
      | some m =>
        decide ((linesRev.length + 1 : Int) < m) ||
        ((rest2.isEmpty ||
          (cfg.dropWhitespace && rest2.length = 1 &&
            (pyStrip (rest2.headD [])).isEmpty)) &&
         decide ((lensum curLine : Int) ≤ widthL))
    if okPlain then .cont rest2 ((indent ++ curLine.flatten) :: linesRev)
    else .stop (truncToFit cfg indent widthL linesRev curLine.reverse)

/-- The tail of `wrapIter` after the indent choice and the leading
whitespace-chunk drop, in the empty-indent `max_lines=None` configuration:
fill the current line, drop a trailing whitespace chunk, and emit the line
when it is non-empty.  `wrapIter_eq_step` below proves that `wrapIter`
reduces to this under those knob settings. -/
def wrapStep (cfg : WrapCfg) (linesRev chunks1 : List Str) : IterOut :=
  if (dropTrailingWs cfg (wrapFill2 cfg cfg.width chunks1).1).isEmpty then
    .cont (wrapFill2 cfg cfg.width chunks1).2 linesRev
  else
    .cont (wrapFill2 cfg cfg.width chunks1).2
      ((dropTrailingWs cfg (wrapFill2 cfg cfg.width chunks1).1).flatten :: linesRev)

/-- The outer `while chunks:` loop of `_wrap_chunks`.  `fuel` bounds the
iteration count; `wrapFuel` below is sufficient whenever the local line width
stays positive (which holds in every configuration this program builds). -/
def wrapLoop (cfg : WrapCfg) : Nat → List Str → List Str → List Str
  | 0, _, linesRev => linesRev.reverse
  | fuel + 1, chunks, linesRev =>
    match chunks with
    | [] => linesRev.reverse
    | _ :: _ =>
      match wrapIter cfg linesRev chunks with
      | .cont chunks' linesRev' => wrapLoop cfg fuel chunks' linesRev'
      | .stop linesRev' => linesRev'.reverse

/-- Fuel for `wrapLoop`: each productive iteration removes a chunk or at
least one character from the chunk list. -/
def wrapFuel (chunks : List Str) : Nat := lensum chunks + chunks.length + 1

/-- `TextWrapper._wrap_chunks` including its entry validation: a
non-positive width and an over-long placeholder under `max_lines` raise
`ValueError`. -/
def wrapChunksE (cfg : WrapCfg) (chunks : List Str) : Except PyExc (List Str) :=
  if cfg.width ≤ 0 then .error (.valueError "invalid width")
  else
    match cfg.maxLines with
    | some m =>
      let ind := if m > 1 then cfg.subsequentIndent else cfg.initialIndent
      if ((ind.length + (pyLStrip cfg.placeholder).length : Int) > cfg.width) then
        .error (.valueError "placeholder too large for max width")
      else .ok (wrapLoop cfg (wrapFuel chunks) chunks [])
    | none => .ok (wrapLoop cfg (wrapFuel chunks) chunks [])

/-- `TextWrapper.wrap`: munge, split, optionally fix sentence endings, wrap.
-/
def wrapperWrap (cfg : WrapCfg) (text : Str) : Except PyExc (List Str) :=
  let chunks := twSplit cfg (mungeWhitespace cfg text)
  let chunks :=
    if cfg.fixSentenceEndings then fixSentenceEndingsGo chunks.length chunks else chunks
  wrapChunksE cfg chunks

/-- `TextWrapper.fill`: `"\n".join(self.wrap(text))`. -/
def wrapperFill (cfg : WrapCfg) (text : Str) : Except PyExc Str :=
  (wrapperWrap cfg text).map (List.intercalate ['\n'])

/-- `textwrap.shorten(text, width, placeholder=...)`: a `TextWrapper` with
`max_lines=1` filling the whitespace-collapsed text. -/
def twShorten (text : Str) (width : Int) (placeholder : Str) : Except PyExc Str :=
  wrapperFill { width := width, maxLines := some 1, placeholder := placeholder }
    (List.intercalate [' '] (pySplitWS (pyStrip text)))

/-!
## `textwrap.dedent` and the `TextFormatter` layer

`textwrap.dedent` (CPython ≤ 3.12) first blanks every line matching
`^[ \t]+$` (multiline), then collects the `[ \t]*` indents of lines that have
a further non-`[ \t\n]` character, folds them with longest-common-prefix, and
finally strips that margin from every line starting with it
(`re.sub(r'(?m)^' + margin, '', text)`).  Both regex passes act line by line,
so the model works on the `'\n'`-split lines.
-/

/-- Is the character space or tab (the `[ \t]` class of `dedent`)? -/
def isSpaceTab (c : Char) : Bool := c = ' ' || c = '\t'

/-- Blank the whitespace-only lines (`_whitespace_only_re.sub('', text)`). -/
def dedentBlank (l : Str) : Str :=
  if !l.isEmpty && l.all isSpaceTab then [] else l

/-- The captured indent of a line with content
(`_leading_whitespace_re.findall`): the maximal `[ \t]*` part of a line that
is followed by some non-`[ \t]` character. -/
def dedentIndent (l : Str) : Option Str :=
  let ind := l.takeWhile isSpaceTab
  if ind.length < l.length then some ind else none

/-- The margin-stripping pass of `dedent` on the blanked lines: compute the
longest common prefix of the captured indents and remove it from every line
that starts with it (`re.sub(r'(?m)^' + margin, '', text)` acts at line
starts only). -/
def dedentLines (lines1 : List Str) : List Str :=
  match lines1.filterMap dedentIndent with
  | [] => lines1
  | i :: is =>
    let margin := is.foldl lcp i
    if margin.isEmpty then lines1
    else lines1.map (fun l => if margin.isPrefixOf l then l.drop margin.length else l)

/-- `textwrap.dedent`. -/
def twDedent (text : Str) : Str :=
  List.intercalate ['\n'] (dedentLines ((pySplitOn ['\n'] text).map dedentBlank))

/-- The configuration built by `TextFormatter.__init__` from its own
parameters (every other `TextWrapper` parameter keeps its default). -/
def mkFormatterFull (width : Int) (ii si : Str) (et rw fse blw boh : Bool) : WrapCfg :=
  { width := width, initialIndent := ii, subsequentIndent := si, expandTabs := et,
    replaceWhitespace := rw, fixSentenceEndings := fse, breakLongWords := blw,
    breakOnHyphens := boh }

/-- The configuration of `TextFormatter(width=w, break_long_words=b)` — the
constructor call made by the command-line driver. -/
def mkFormatter (width : Int) (breakLongWords : Bool) : WrapCfg :=
  mkFormatterFull width [] [] true true false breakLongWords true

/-- `TextFormatter.wrap`: empty or all-whitespace text short-circuits to the
empty list, otherwise `self.wrapper.wrap`. -/
def tfWrap (cfg : WrapCfg) (text : Str) : Except PyExc (List Str) :=
  if (pyStrip text).isEmpty then .ok [] else wrapperWrap cfg text

/-- `TextFormatter.fill`: empty or all-whitespace text short-circuits to the
empty string, otherwise `self.wrapper.fill`. -/
def tfFill (cfg : WrapCfg) (text : Str) : Except PyExc Str :=
  if (pyStrip text).isEmpty then .ok [] else wrapperFill cfg text

/-- `TextFormatter.dedent_text` is `textwrap.dedent`. -/
def tfDedent (text : Str) : Str := twDedent text

/-- `TextFormatter.shorten(text, width, placeholder="...")` delegates to
`textwrap.shorten` and ignores the formatter's own configuration. -/
def tfShorten (text : Str) (width : Int) (placeholder : Str) : Except PyExc Str :=
  twShorten text width placeholder

/-- `TextFormatter.format_with_prefix`: fill through a fresh formatter whose
initial and subsequent indents are the given prefix and which copies the
width, whitespace and breaking options (but not `fix_sentence_endings`). -/
def tfFormatWithPfx (cfg : WrapCfg) (text pfx : Str) : Except PyExc Str :=
  tfFill (mkFormatterFull cfg.width pfx pfx cfg.expandTabs cfg.replaceWhitespace
    false cfg.breakLongWords cfg.breakOnHyphens) text

/-- Per-paragraph step of `TextFormatter.format_paragraphs`: fill stripped
non-blank paragraphs, keep blank ones as empty strings. -/
def formatPara (cfg : WrapCfg) (p : Str) : Except PyExc Str :=
  if !(pyStrip p).isEmpty then tfFill cfg (pyStrip p) else .ok []

/-- `TextFormatter.format_paragraphs`: split on `"\n\n"`, process each
paragraph, re-join with `"\n\n"`. -/
def tfFormatParagraphs (cfg : WrapCfg) (text : Str) : Except PyExc Str := do
  let formatted ← (pySplitOn ['\n', '\n'] text).mapM (formatPara cfg)
  pure (List.intercalate ['\n', '\n'] formatted)

section FormatterChecks

example : twDedent ("  a\n    b\n\n  c".toList) = "a\n  b\n\nc".toList := by decide
example : twDedent ("\ta\n\t\tb".toList) = "a\n\tb".toList := by decide
example : twDedent ("  a\n \n  b".toList) = "a\n\nb".toList := by decide

end FormatterChecks

/-!
## `FileHandler` model

The filesystem is modelled as a partial map from path strings to entries; a
regular file carries its raw bytes and a readability flag, a directory its
child names.  `writable` models write permission.  UTF-8 encoding and strict
decoding are implemented concretely so that decode failures are real.
-/

/-- A filesystem entry: a regular file (with read permission flag and raw
bytes), a directory (with its direct child names), or something else. -/
inductive FSEntry
  | file (readable : Bool) (bytes : List Nat)
  | directory (names : List Str)
  | other
deriving DecidableEq

/-- The filesystem state. -/
structure FS where
  lookup : Str → Option FSEntry
  writable : Str → Bool

/-- UTF-8 encoding of one code point (always valid for Lean `Char`). -/
def utf8EncodeChar (c : Char) : List Nat :=
  let n := c.toNat
  if n < 0x80 then [n]
  else if n < 0x800 then [0xC0 + n / 0x40, 0x80 + n % 0x40]
  else if n < 0x10000 then
    [0xE0 + n / 0x1000, 0x80 + n / 0x40 % 0x40, 0x80 + n % 0x40]
  else
    [0xF0 + n / 0x40000, 0x80 + n / 0x1000 % 0x40, 0x80 + n / 0x40 % 0x40,
      0x80 + n % 0x40]

/-- UTF-8 encoding of a string. -/
def utf8Encode (s : Str) : List Nat := s.flatMap utf8EncodeChar

/-- Is the byte a UTF-8 continuation byte `0x80..0xBF`? -/
def isCont (b : Nat) : Bool := 0x80 ≤ b && b ≤ 0xBF

/-- Strict UTF-8 decoding (Python `bytes.decode('utf-8')`): rejects invalid
leading bytes, truncated sequences, overlong forms, surrogates and code
points above `U+10FFFF`.  Returns `none` on any invalid input. -/
def utf8DecodeGo : Nat → List Nat → Option Str
  | _, [] => some []
  | 0, _ :: _ => none
  | fuel + 1, b :: rest =>
    if b < 0x80 then (utf8DecodeGo fuel rest).map (fun s => Char.ofNat b :: s)
    else if 0xC2 ≤ b && b ≤ 0xDF then
      match rest with
      | b1 :: rest1 =>
        if isCont b1 then
          (utf8DecodeGo fuel rest1).map
            (fun s => Char.ofNat ((b - 0xC0) * 0x40 + (b1 - 0x80)) :: s)
        else none
      | [] => none
    else if 0xE0 ≤ b && b ≤ 0xEF then
      match rest with
      | b1 :: b2 :: rest2 =>
        let lo1 := if b = 0xE0 then 0xA0 else 0x80
        let hi1 := if b = 0xED then 0x9F else 0xBF
        if lo1 ≤ b1 && b1 ≤ hi1 && isCont b2 then
          (utf8DecodeGo fuel rest2).map
            (fun s =>
              Char.ofNat ((b - 0xE0) * 0x1000 + (b1 - 0x80) * 0x40 + (b2 - 0x80)) :: s)
        else none
      | _ => none
    else if 0xF0 ≤ b && b ≤ 0xF4 then
      match rest with
      | b1 :: b2 :: b3 :: rest3 =>
        let lo1 := if b = 0xF0 then 0x90 else 0x80
        let hi1 := if b = 0xF4 then 0x8F else 0xBF
        if lo1 ≤ b1 && b1 ≤ hi1 && isCont b2 && isCont b3 then
          (utf8DecodeGo fuel rest3).map
            (fun s =>
              Char.ofNat ((b - 0xF0) * 0x40000 + (b1 - 0x80) * 0x1000 +
                (b2 - 0x80) * 0x40 + (b3 - 0x80)) :: s)
        else none
      | _ => none
    else none

/-- Strict UTF-8 decoding of a byte string. -/
def utf8Decode (bytes : List Nat) : Option Str := utf8DecodeGo bytes.length bytes

/-- `FileHandler.read_file`.  The checks appear in source order: existence,
regular-file, permission, decoding.  The `except UnicodeDecodeError` clause
re-raises via `UnicodeDecodeError(f"...")`, but that constructor requires
five arguments, so the construction itself raises
`TypeError: function takes exactly 5 arguments (1 given)` — which is what the
caller observes on undecodable bytes. -/
def readFileM (fs : FS) (filePath : Str) : Except PyExc Str :=
  match fs.lookup filePath with
  | none => .error (.fileNotFoundError "file not found")
  | some (.file readable bytes) =>
    if !readable then .error (.permissionError "no read permission")
    else
      match utf8Decode bytes with
      | some s => .ok s
      | none => .error (.typeError "function takes exactly 5 arguments (1 given)")
  | some _ => .error (.valueError "path is not a file")

/-- `FileHandler.write_file`: create the file (parent-directory creation is
not modelled beyond the write succeeding), overwriting any previous entry;
a non-writable path raises `PermissionError`. -/
def writeFileM (fs : FS) (filePath : Str) (content : Str) : Except PyExc FS :=
  if fs.writable filePath then
    .ok { fs with
      lookup := fun q =>
        if q = filePath then some (.file true (utf8Encode content)) else fs.lookup q }
  else .error (.permissionError "no write permission")

/-- Restricted `fnmatch` pattern matching: `'*'` matches any (possibly
empty) run of characters, every other character matches itself.  The glob
patterns this program builds are `"*" + extension`, so `'?'` and `'[`...`]'`
never arise for ordinary extensions; they are treated as literals here. -/
def fnmatchStar : Nat → Str → Str → Bool
  | 0, p, n => p.isEmpty && n.isEmpty
  | fuel + 1, p, n =>
    match p with
    | [] => n.isEmpty
    | c :: ps =>
      if c = '*' then
        fnmatchStar fuel ps n ||
        (match n with
         | _ :: ns => fnmatchStar fuel (c :: ps) ns
         | [] => false)
      else
        match n with
        | [] => false
        | d :: ns => c = d && fnmatchStar fuel ps ns

/-- Glob matching with pattern `"*" ++ ext` against a file name. -/
def globMatch (ext name : Str) : Bool :=
  fnmatchStar (ext.length + name.length + 2) ('*' :: ext) name

/-- POSIX path join as produced by `pathlib` (`str(Path(d) / n)`). -/
def pathJoin (d n : Str) : Str := if d = ['.'] then n else d ++ '/' :: n

/-- Is the path a regular file (`Path.is_file`)? -/
def isFileAt (fs : FS) (p : Str) : Bool :=
  match fs.lookup p with
  | some (.file _ _) => true
  | _ => false

/-- `FileHandler.find_text_files`: default extension list `['.txt']`,
existence and directory checks, one glob per extension over the directory's
direct children, keep regular files, sort the path strings. -/
def findTextFiles (fs : FS) (directory : Str) (extensions : Option (List Str)) :
    Except PyExc (List Str) :=
  let exts := extensions.getD [".txt".toList]
  match fs.lookup directory with
  | none => .error (.fileNotFoundError "directory not found")
  | some (.directory names) =>
    let files := exts.flatMap
      (fun ext => (names.filter (globMatch ext)).map (pathJoin directory))
    .ok (sortStr (files.filter (isFileAt fs)))
  | some _ => .error (.notADirectoryError "path is not a directory")

/-- The file-name part of a path. -/
def pathFileName (p : Str) : Str := (p.reverse.takeWhile (fun c => c ≠ '/')).reverse

/-- Index of the last `'.'` in a string. -/
def rfindDot (s : Str) : Option Nat :=
  (s.reverse.findIdx? (fun c => c = '.')).map (fun i => s.length - 1 - i)

/-- `pathlib.PurePath.suffix`: the part from the last dot, empty when the
dot is absent, leading or trailing. -/
def pathSuffixExt (p : Str) : Str :=
  let name := pathFileName p
  match rfindDot name with
  | some i => if 0 < i && i < name.length - 1 then name.drop i else []
  | none => []

/-- `pathlib.PurePath.stem`: the file name with `suffix` removed. -/
def pathStem (p : Str) : Str :=
  let name := pathFileName p
  name.take (name.length - (pathSuffixExt p).length)

/-- `pathlib.PurePath.parent` rendered as a string (sufficient for
single-segment and relative two-segment paths). -/
def pathParent (p : Str) : Str :=
  if p.contains '/' then ((p.reverse.dropWhile (fun c => c ≠ '/')).reverse).dropLast
  else ['.']

/-- `FileHandler.get_output_path` (the `mkdir` of the output directory is a
side effect that does not change the returned path and is not modelled). -/
def getOutputPath (inputPath : Str) (outputDir : Option Str) (sfx : Str) : Str :=
  let base := pathStem inputPath ++ sfx ++ pathSuffixExt inputPath
  match outputDir with
  | some d => pathJoin d base
  | none => pathJoin (pathParent inputPath) base

/-!
## CLI driver model (`cli.py`)

`CliArgs` is the resolved `argparse` namespace (field defaults are the
parser defaults).  Python truthiness of the optional string/integer options
is modelled explicitly: `None`, `""` and `0` are falsy.  Observable output
is collected as a list of events; `main` returns the process exit status
(argparse's `parser.error` exits with status 2).  A `KeyboardInterrupt`
raised while processing file `i` is modelled by `interruptAt = some i`.
-/

/-- The resolved command-line options (defaults as in `create_parser`). -/
structure CliArgs where
  input : Option Str := none
  directory : Option Str := none
  width : Int := 80
  pfx : Option Str := none
  dedent : Bool := false
  shorten : Option Int := none
  preserveParagraphs : Bool := false
  output : Option Str := none
  outputFile : Option Str := none
  noBreakLongWords : Bool := false
  verbose : Bool := false
deriving DecidableEq

/-- Python truthiness of an optional string. -/
def truthyS : Option Str → Bool
  | none => false
  | some s => !s.isEmpty

/-- Python truthiness of an optional integer. -/
def truthyI : Option Int → Bool
  | none => false
  | some n => n ≠ 0

/-- The formatter `main` constructs:
`TextFormatter(width=args.width, break_long_words=not args.no_break_long_words)`. -/
def cliFormatter (args : CliArgs) : WrapCfg :=
  mkFormatter args.width (!args.noBreakLongWords)

/-- The transformation pipeline of `format_file` after the file is read:
dedent first when requested, then the `if/elif` chain
shorten / preserve-paragraphs / prefix / plain fill. -/
def transformContent (args : CliArgs) (fm : WrapCfg) (content : Str) :
    Except PyExc Str :=
  let c := if args.dedent then tfDedent content else content
  if truthyI args.shorten then tfShorten c (args.shorten.getD 0) ("...".toList)
  else if args.preserveParagraphs then tfFormatParagraphs fm c
  else if truthyS args.pfx then tfFormatWithPfx fm c (args.pfx.getD [])
  else tfFill fm c

/-- `format_file` up to its exception handler: read, then transform. -/
def formatFileM (fs : FS) (args : CliArgs) (filePath : Str) : Except PyExc Str := do
  let content ← readFileM fs filePath
  transformContent args (cliFormatter args) content

/-- Observable output of a run. -/
inductive Event
  | out (s : Str)
  | err (msg : String)
  | wrote (p : Str) (s : Str)
deriving DecidableEq

/-- Result of processing one file in `main`'s loop: updated filesystem,
events, and whether `processed_count` was incremented. -/
def processOne (fs : FS) (args : CliArgs) (nfiles : Nat) (filePath : Str) :
    FS × List Event × Bool :=
  match formatFileM fs args filePath with
  | .error _ =>
    -- non-verbose: format_file prints the error and returns "", and the
    -- empty result is then skipped; verbose: the exception propagates to
    -- main's per-file handler, which prints and continues.  Neither counts.
    (fs, [.err "per-file error"], false)
  | .ok s =>
    if s.isEmpty && !args.verbose then (fs, [], false)
    else if truthyS args.outputFile && nfiles = 1 then
      match writeFileM fs (args.outputFile.getD []) s with
      | .ok fs' => (fs', [.wrote (args.outputFile.getD []) s], true)
      | .error _ => (fs, [.err "write error"], false)
    else if truthyS args.output then
      match writeFileM fs (getOutputPath filePath args.output ("_formatted".toList)) s with
      | .ok fs' =>
        (fs', [.wrote (getOutputPath filePath args.output ("_formatted".toList)) s], true)
      | .error _ => (fs, [.err "write error"], false)
    else (fs, [.out s], true)

/-- The per-file loop of `main`: processes files in order, stops with exit
status 130 on an interrupt, accumulates `processed_count` and events. -/
def runFiles (args : CliArgs) (nfiles : Nat) (interruptAt : Option Nat) :
    FS → Nat → List Str → Nat × List Event × Option Int
  | _, _, [] => (0, [], none)
  | fs, i, f :: rest =>
    if interruptAt = some i then (0, [.err "interrupted"], some 130)
    else
      match processOne fs args nfiles f with
      | (fs', evs, counted) =>
        match runFiles args nfiles interruptAt fs' (i + 1) rest with
        | (c, evs2, ex) => ((if counted then 1 else 0) + c, evs ++ evs2, ex)

/-- `main` for a resolved file list. -/
def runMain (fs : FS) (args : CliArgs) (interruptAt : Option Nat)
    (files : List Str) : Int × List Event :=
  match runFiles args files.length interruptAt fs 0 files with
  | (_, evs, some code) => (code, evs)
  | (count, evs, none) => (if count > 0 then 0 else 1, evs)

/-- `main`: usage validation (argparse `parser.error` exits with status 2),
file-list resolution (a truthy positional input wins over the directory),
then the per-file loop; exit 0 only when `processed_count > 0`. -/
def mainModel (fs : FS) (args : CliArgs) (interruptAt : Option Nat) :
    Int × List Event :=
  if !truthyS args.input && !truthyS args.directory then (2, [.err "usage"])
  else if truthyS args.input then
    runMain fs args interruptAt [args.input.getD []]
  else
    match findTextFiles fs (args.directory.getD []) none with
    | .error _ => (1, [.err "error while searching for files"])
    | .ok [] => (1, [.err "no text files found"])
    | .ok files => runMain fs args interruptAt files

/-- A file is processed through to output against the filesystem it is
visited with: `format_file` succeeds, the empty-and-non-verbose skip does
not fire, and the routed destination accepts the write — an explicit
single output file when exactly one file is being processed, else the
per-file path under the output directory, else standard output (which
always succeeds). -/
def processedToOutput (fs : FS) (args : CliArgs) (nfiles : Nat) (f : Str) : Prop :=
  ∃ s, formatFileM fs args f = .ok s ∧ ¬(s = [] ∧ args.verbose = false) ∧
    (truthyS args.outputFile = true ∧ nfiles = 1 →
      ∃ fs2, writeFileM fs (args.outputFile.getD []) s = .ok fs2) ∧
    (¬(truthyS args.outputFile = true ∧ nfiles = 1) → truthyS args.output = true →
      ∃ fs2, writeFileM fs (getOutputPath f args.output ("_formatted".toList)) s = .ok fs2)

/-- The filesystem state after the loop has visited a prefix of the file
list (writes performed by earlier files are visible to later ones). -/
def loopFS (args : CliArgs) (nfiles : Nat) (fs : FS) : List Str → FS
  | [] => fs
  | f :: rest => loopFS args nfiles (processOne fs args nfiles f).1 rest

/-!
## Properties of the splitting primitives
-/

theorem splitOnGo_ne_nil (sep : Str) :
    ∀ (fuel : Nat) (acc s : Str), splitOnGo sep fuel acc s ≠ [] := by
  intro fuel
  induction fuel with
  | zero => intro acc s; simp [splitOnGo]
  | succ f ih =>
    intro acc s
    simp only [splitOnGo]
    by_cases hp : sep.isPrefixOf s
    · simp [hp]
    · simp only [hp, if_false, Bool.false_eq_true]
      match s with
      | [] => simp
      | c :: r => exact ih (acc ++ [c]) r

theorem splitOnGo_fuel (sep : Str) (hsep : sep ≠ []) :
    ∀ (fuel1 fuel2 : Nat) (s acc : Str), s.length < fuel1 → s.length < fuel2 →
      splitOnGo sep fuel1 acc s = splitOnGo sep fuel2 acc s := by
  intro fuel1
  induction fuel1 with
  | zero => intro fuel2 s acc h1 _; exact absurd h1 (Nat.not_lt_zero _)
  | succ f1 ih =>
    intro fuel2 s acc h1 h2
    cases fuel2 with
    | zero => exact absurd h2 (Nat.not_lt_zero _)
    | succ f2 =>
      simp only [splitOnGo]
      by_cases hp : sep.isPrefixOf s
      · simp only [hp, if_true]
        have hps : sep <+: s := by
          exact (List.isPrefixOf_iff_prefix).1 hp
        have hlen : 1 ≤ sep.length := by
          cases sep with
          | nil => exact absurd rfl hsep
          | cons a t => simp
        have hsl : 1 ≤ s.length := le_trans hlen hps.length_le
        have hd : (s.drop sep.length).length < f1 := by
          simp only [List.length_drop]; omega
        have hd2 : (s.drop sep.length).length < f2 := by
          simp only [List.length_drop]; omega
        rw [ih f2 (s.drop sep.length) [] hd hd2]
      · simp only [hp, if_false, Bool.false_eq_true]
        match s, h1, h2 with
        | [], _, _ => rfl
        | c :: r, h1, h2 =>
          have hr1 : r.length < f1 := by simp at h1; omega
          have hr2 : r.length < f2 := by simp at h2; omega
          exact ih f2 r (acc ++ [c]) hr1 hr2

/-- Pieces of a single-character split never contain the separator. -/
theorem splitOnGo_single_no_sep (c : Char) :
    ∀ (fuel : Nat) (s acc : Str), s.length < fuel → c ∉ acc →
      ∀ l ∈ splitOnGo [c] fuel acc s, c ∉ l := by
  intro fuel
  induction fuel with
  | zero => intro s acc h1 _; exact absurd h1 (Nat.not_lt_zero _)
  | succ f ih =>
    intro s acc h1 hacc l hl
    simp only [splitOnGo] at hl
    by_cases hp : List.isPrefixOf [c] s
    · simp only [hp, if_true, List.mem_cons] at hl
      rcases hl with rfl | hl
      · exact hacc
      · have hps : [c] <+: s := List.isPrefixOf_iff_prefix.1 hp
        have hd : (s.drop 1).length < f := by
          have := hps.length_le; simp only [List.length_drop]; simp at this; omega
        exact ih (s.drop 1) [] hd (by simp) l hl
    · simp only [hp, if_false, Bool.false_eq_true] at hl
      match s, h1, hl with
      | [], _, hl =>
        simp at hl; subst hl; exact hacc
      | d :: r, h1, hl =>
        have hdc : c ≠ d := by
          intro h; subst h
          exact hp (by simp [List.isPrefixOf])
        have hr : r.length < f := by simp at h1; omega
        refine ih r (acc ++ [d]) hr ?_ l hl
        simp [hacc, hdc]

/-- A string without the separator character splits into one piece. -/
theorem splitOnGo_single_pass (c : Char) :
    ∀ (s : Str) (acc : Str) (fuel : Nat), s.length < fuel → c ∉ s →
      splitOnGo [c] fuel acc s = [acc ++ s] := by
  intro s
  induction s with
  | nil =>
    intro acc fuel h1 _
    cases fuel with
    | zero => exact absurd h1 (Nat.not_lt_zero _)
    | succ f => simp [splitOnGo, List.isPrefixOf]
  | cons d r ih =>
    intro acc fuel h1 hnc
    cases fuel with
    | zero => exact absurd h1 (Nat.not_lt_zero _)
    | succ f =>
      have hdc : c ≠ d := fun h => hnc (h ▸ List.mem_cons_self d r)
      have hp : List.isPrefixOf [c] (d :: r) = false := by
        simp [List.isPrefixOf, hdc]
      simp only [splitOnGo, hp, Bool.false_eq_true, if_false]
      have hr : r.length < f := by simp at h1; omega
      rw [ih (acc ++ [d]) f hr (fun h => hnc (List.mem_cons_of_mem d h))]
      simp

/-- Splitting `p ++ [c] ++ rest` on `c` where `p` avoids `c` yields `p`
followed by the split of `rest`. -/
theorem splitOnGo_single_found (c : Char) :
    ∀ (p : Str) (acc s : Str) (fuel : Nat), (p ++ c :: s).length < fuel → c ∉ p →
      splitOnGo [c] fuel acc (p ++ c :: s) = (acc ++ p) :: pySplitOn [c] s := by
  intro p
  induction p with
  | nil =>
    intro acc s fuel h1 _
    cases fuel with
    | zero => exact absurd h1 (Nat.not_lt_zero _)
    | succ f =>
      have hp : List.isPrefixOf [c] (c :: s) = true := by simp [List.isPrefixOf]
      simp only [List.nil_append, splitOnGo, hp, if_true, List.length_cons,
        List.length_nil, List.drop_succ_cons, List.drop_zero]
      have hs : s.length < f := by simp at h1; omega
      rw [splitOnGo_fuel [c] (by simp) f (s.length + 1) s [] (by simpa using hs) (by omega)]
      simp [pySplitOn]
  | cons d p' ih =>
    intro acc s fuel h1 hnc
    cases fuel with
    | zero => exact absurd h1 (Nat.not_lt_zero _)
    | succ f =>
      have hdc : c ≠ d := fun h => hnc (h ▸ List.mem_cons_self d p')
      have hp : List.isPrefixOf [c] (d :: (p' ++ c :: s)) = false := by
        simp [List.isPrefixOf, hdc]
      simp only [List.cons_append, splitOnGo, hp, Bool.false_eq_true, if_false]
      have hr : (p' ++ c :: s).length < f := by simp at h1 ⊢; omega
      rw [ih (acc ++ [d]) s f hr (fun h => hnc (List.mem_cons_of_mem d h))]
      simp

theorem intercalate_single (sep : Str) (p : Str) : List.intercalate sep [p] = p := by
  simp [List.intercalate, List.intersperse]

theorem intercalate_cons2 (sep : Str) (p q : Str) (t : List Str) :
    List.intercalate sep (p :: q :: t) = p ++ sep ++ List.intercalate sep (q :: t) := by
  simp [List.intercalate, List.intersperse]

/-- Single-character split/join roundtrip on separator-free pieces. -/
theorem pySplitOn_single_intercalate (c : Char) :
    ∀ (parts : List Str), parts ≠ [] → (∀ p ∈ parts, c ∉ p) →
      pySplitOn [c] (List.intercalate [c] parts) = parts := by
  intro parts
  induction parts with
  | nil => intro h _; exact absurd rfl h
  | cons p rest ih =>
    intro _ hfree
    cases rest with
    | nil =>
      rw [intercalate_single]
      unfold pySplitOn
      rw [splitOnGo_single_pass c p [] (p.length + 1) (by omega)
        (hfree p (List.mem_cons_self p []))]
      simp
    | cons q rest' =>
      rw [intercalate_cons2]
      unfold pySplitOn
      rw [List.append_assoc, List.singleton_append]
      rw [splitOnGo_single_found c p [] (List.intercalate [c] (q :: rest')) _
        (by simp) (hfree p (List.mem_cons_self p _))]
      rw [ih (by simp) (fun r hr => hfree r (List.mem_cons_of_mem p hr))]
      simp

/-- Does the string contain two consecutive newlines (an occurrence of the
paragraph separator)? -/
def hasNN : Str → Bool
  | a :: b :: r => (a = '\n' && b = '\n') || hasNN (b :: r)
  | _ => false

theorem pySplitOn_ne_nil (sep s : Str) : pySplitOn sep s ≠ [] :=
  splitOnGo_ne_nil sep (s.length + 1) [] s

theorem pySplitOn_single_no_sep (c : Char) (s : Str) :
    ∀ l ∈ pySplitOn [c] s, c ∉ l :=
  splitOnGo_single_no_sep c (s.length + 1) s [] (by omega) (by simp)

/-- A string with no paragraph separator occurrence splits (on the
separator) into one piece. -/
theorem splitOnGo_nn_pass :
    ∀ (s : Str) (acc : Str) (fuel : Nat), s.length < fuel → hasNN s = false →
      splitOnGo ['\n', '\n'] fuel acc s = [acc ++ s] := by
  intro s
  induction s with
  | nil =>
    intro acc fuel h1 _
    cases fuel with
    | zero => exact absurd h1 (Nat.not_lt_zero _)
    | succ f => simp [splitOnGo, List.isPrefixOf]
  | cons a r ih =>
    intro acc fuel h1 hnn
    cases fuel with
    | zero => exact absurd h1 (Nat.not_lt_zero _)
    | succ f =>
      have hp : List.isPrefixOf ['\n', '\n'] (a :: r) = false := by
        cases r with
        | nil => simp [List.isPrefixOf]
        | cons b r' =>
          simp only [hasNN, Bool.or_eq_false_iff] at hnn
          have hne : ¬(a = '\n' ∧ b = '\n') := by
            intro h
            rw [h.1, h.2] at hnn
            exact absurd hnn.1 (by simp)
          simp only [List.isPrefixOf, beq_iff_eq, Bool.and_eq_false_iff,
            decide_eq_false_iff_not]
          by_cases ha : '\n' = a
          · by_cases hb : '\n' = b
            · exact absurd ⟨ha.symm, hb.symm⟩ hne
            · simp [ha, hb]
          · simp [ha]
      simp only [splitOnGo, hp, Bool.false_eq_true, if_false]
      have hr : r.length < f := by simp at h1; omega
      have hnr : hasNN r = false := by
        cases r with
        | nil => rfl
        | cons b r' => simp only [hasNN, Bool.or_eq_false_iff] at hnn; exact hnn.2
      rw [ih (acc ++ [a]) f hr hnr]
      simp

/-- Splitting `p ++ "\n\n" ++ rest` on the paragraph separator where `p`
contains no separator occurrence and does not end in a newline yields `p`
followed by the split of `rest`. -/
theorem splitOnGo_nn_found :
    ∀ (p : Str) (acc s : Str) (fuel : Nat),
      (p ++ '\n' :: '\n' :: s).length < fuel → hasNN p = false →
      p.getLast? ≠ some '\n' →
      splitOnGo ['\n', '\n'] fuel acc (p ++ '\n' :: '\n' :: s) =
        (acc ++ p) :: pySplitOn ['\n', '\n'] s := by
  intro p
  induction p with
  | nil =>
    intro acc s fuel h1 _ _
    cases fuel with
    | zero => exact absurd h1 (Nat.not_lt_zero _)
    | succ f =>
      have hp : List.isPrefixOf ['\n', '\n'] ('\n' :: '\n' :: s) = true := by
        simp [List.isPrefixOf]
      simp only [List.nil_append, splitOnGo, hp, if_true, List.length_cons,
        List.length_nil, List.drop_succ_cons, List.drop_zero]
      have hs : s.length < f := by simp at h1; omega
      rw [splitOnGo_fuel ['\n', '\n'] (by simp) f (s.length + 1) s []
        (by simpa using hs) (by omega)]
      simp [pySplitOn]
  | cons a p' ih =>
    intro acc s fuel h1 hnn hlast
    cases fuel with
    | zero => exact absurd h1 (Nat.not_lt_zero _)
    | succ f =>
      have hp : List.isPrefixOf ['\n', '\n'] (a :: (p' ++ '\n' :: '\n' :: s)) = false := by
        cases p' with
        | nil =>
          have ha : a ≠ '\n' := by
            intro h; exact hlast (by simp [h])
          have ha2 : ¬('\n' = a) := fun h => ha h.symm
          simp only [List.nil_append, List.isPrefixOf, beq_iff_eq,
            Bool.and_eq_false_iff, decide_eq_false_iff_not]
          simp [ha2]
        | cons b p'' =>
          simp only [hasNN, Bool.or_eq_false_iff] at hnn
          have hne : ¬(a = '\n' ∧ b = '\n') := by
            intro h
            rw [h.1, h.2] at hnn
            exact absurd hnn.1 (by simp)
          simp only [List.cons_append, List.isPrefixOf, beq_iff_eq,
            Bool.and_eq_false_iff, decide_eq_false_iff_not]
          by_cases ha : '\n' = a
          · by_cases hb : '\n' = b
            · exact absurd ⟨ha.symm, hb.symm⟩ hne
            · simp [ha, hb]
          · simp [ha]
      simp only [List.cons_append, splitOnGo, hp, Bool.false_eq_true, if_false]
      have hr : (p' ++ '\n' :: '\n' :: s).length < f := by
        simp at h1 ⊢; omega
      have hnn' : hasNN p' = false := by
        cases p' with
        | nil => rfl
        | cons b p'' => simp only [hasNN, Bool.or_eq_false_iff] at hnn; exact hnn.2
      have hlast' : p'.getLast? ≠ some '\n' := by
        cases p' with
        | nil => simp
        | cons b p'' =>
          intro h
          exact hlast (by rw [List.getLast?_cons_cons]; exact h)
      rw [ih (acc ++ [a]) s f hr hnn' hlast']
      simp

/-- Paragraph-separator split/join roundtrip: pieces free of the separator
and not ending in a newline are recovered exactly. -/
theorem pySplitOn_nn_intercalate :
    ∀ (parts : List Str), parts ≠ [] →
      (∀ p ∈ parts, hasNN p = false ∧ p.getLast? ≠ some '\n') →
      pySplitOn ['\n', '\n'] (List.intercalate ['\n', '\n'] parts) = parts := by
  intro parts
  induction parts with
  | nil => intro h _; exact absurd rfl h
  | cons p rest ih =>
    intro _ hgood
    cases rest with
    | nil =>
      rw [intercalate_single]
      unfold pySplitOn
      rw [splitOnGo_nn_pass p [] (p.length + 1) (by omega)
        (hgood p (List.mem_cons_self p [])).1]
      simp
    | cons q rest' =>
      rw [intercalate_cons2]
      unfold pySplitOn
      rw [List.append_assoc]
      have hshape : (['\n', '\n'] : Str) ++ List.intercalate ['\n', '\n'] (q :: rest') =
          '\n' :: '\n' :: List.intercalate ['\n', '\n'] (q :: rest') := by simp
      rw [hshape]
      rw [splitOnGo_nn_found p [] (List.intercalate ['\n', '\n'] (q :: rest')) _
        (by simp) (hgood p (List.mem_cons_self p _)).1
        (hgood p (List.mem_cons_self p _)).2]
      rw [ih (by simp) (fun r hr => hgood r (List.mem_cons_of_mem p hr))]
      simp

/-!
## Claim C4: `fill` is `wrap` joined by newlines
-/

/-- C4: for every configuration and text, `fill(T)` is exactly the lines of
`wrap(T)` joined with a single newline; in particular empty or
all-whitespace input gives the empty list from `wrap` and the empty string
from `fill`. -/
theorem C4_fill_eq_joined_wrap (cfg : WrapCfg) (text : Str) :
    tfFill cfg text = (tfWrap cfg text).map (List.intercalate ['\n']) ∧
    ((pyStrip text).isEmpty →
      tfWrap cfg text = .ok [] ∧ tfFill cfg text = .ok []) := by
  constructor
  · unfold tfFill tfWrap wrapperFill
    by_cases h : (pyStrip text).isEmpty
    · simp [h, Except.map, List.intercalate]
    · simp [h]
  · intro h
    unfold tfFill tfWrap
    simp [h]

/-- Witness for C4 at a concrete all-whitespace input. -/
theorem C4_witness :
    tfWrap (mkFormatter 80 true) (" \n ".toList) = .ok [] ∧
    tfFill (mkFormatter 80 true) (" \n ".toList) = .ok [] :=
  (C4_fill_eq_joined_wrap (mkFormatter 80 true) (" \n ".toList)).2 (by decide)

/-!
## Claim C9: `dedent` is idempotent
-/

theorem lcp_prefix_left : ∀ (a b : Str), lcp a b <+: a := by
  intro a
  induction a with
  | nil => intro b; cases b <;> simp [lcp]
  | cons x as ih =>
    intro b
    cases b with
    | nil => simp [lcp]
    | cons y bs =>
      by_cases h : x = y
      · simp only [lcp, h, if_true]
        exact List.cons_prefix_cons.2 ⟨rfl, ih bs⟩
      · simp [lcp, h]

theorem lcp_prefix_right : ∀ (a b : Str), lcp a b <+: b := by
  intro a
  induction a with
  | nil => intro b; cases b <;> simp [lcp]
  | cons x as ih =>
    intro b
    cases b with
    | nil => simp [lcp]
    | cons y bs =>
      by_cases h : x = y
      · subst h
        simp only [lcp, if_true]
        exact List.cons_prefix_cons.2 ⟨rfl, ih bs⟩
      · simp [lcp, h]

theorem prefix_lcp : ∀ (p a b : Str), p <+: a → p <+: b → p <+: lcp a b := by
  intro p
  induction p with
  | nil => intro a b _ _; exact List.nil_prefix
  | cons x p' ih =>
    intro a b ha hb
    obtain ⟨ta, rfl⟩ := ha
    obtain ⟨tb, hb'⟩ := hb
    cases b with
    | nil => simp at hb'
    | cons y bs =>
      have hxy : y = x := by
        have := congrArg (List.head?) hb'.symm
        simpa using this
      subst hxy
      have hpb : p' <+: bs := by
        refine ⟨tb, ?_⟩
        have := hb'
        simpa using this
      simp only [List.cons_append, lcp, if_true]
      exact List.cons_prefix_cons.2 ⟨rfl, ih (p' ++ ta) bs ⟨ta, rfl⟩ hpb⟩

theorem foldl_lcp_common : ∀ (is : List Str) (i : Str), ∀ x ∈ i :: is,
    is.foldl lcp i <+: x := by
  intro is
  induction is with
  | nil =>
    intro i x hx
    simp at hx
    subst hx
    simp
  | cons j is' ih =>
    intro i x hx
    have step : ∀ y ∈ (lcp i j) :: is', List.foldl lcp (lcp i j) is' <+: y :=
      ih (lcp i j)
    simp only [List.mem_cons] at hx
    rcases hx with rfl | rfl | hx
    · exact (step (lcp x j) (List.mem_cons_self _ _)).trans (lcp_prefix_left x j)
    · exact (step (lcp i x) (List.mem_cons_self _ _)).trans (lcp_prefix_right i x)
    · exact step x (List.mem_cons_of_mem _ hx)

theorem lcp_drop : ∀ (m a b : Str), m <+: a → m <+: b →
    lcp (a.drop m.length) (b.drop m.length) = (lcp a b).drop m.length := by
  intro m
  induction m with
  | nil => intro a b _ _; simp
  | cons x m' ih =>
    intro a b ha hb
    obtain ⟨ta, rfl⟩ := ha
    obtain ⟨tb, rfl⟩ := hb
    simp only [List.cons_append, lcp, if_true, List.length_cons,
      List.drop_succ_cons]
    exact ih (m' ++ ta) (m' ++ tb) ⟨ta, rfl⟩ ⟨tb, rfl⟩

theorem foldl_lcp_drop : ∀ (is : List Str) (i m : Str),
    (∀ x ∈ i :: is, m <+: x) →
    (is.map (fun l => l.drop m.length)).foldl lcp (i.drop m.length) =
      (is.foldl lcp i).drop m.length := by
  intro is
  induction is with
  | nil => intro i m _; simp
  | cons j is' ih =>
    intro i m hm
    simp only [List.map_cons, List.foldl_cons]
    rw [lcp_drop m i j (hm i (by simp)) (hm j (by simp))]
    refine ih (lcp i j) m ?_
    intro x hx
    simp only [List.mem_cons] at hx
    rcases hx with rfl | hx
    · exact prefix_lcp m i j (hm i (by simp)) (hm j (by simp))
    · exact hm x (by simp [hx])

theorem dedentBlank_idem (l : Str) : dedentBlank (dedentBlank l) = dedentBlank l := by
  unfold dedentBlank
  by_cases h : !l.isEmpty && l.all isSpaceTab
  · simp [h]
  · simp [h]

/-- A captured indent is a prefix of its line. -/
theorem dedentIndent_leads {l ind : Str} (h : dedentIndent l = some ind) :
    ind <+: l := by
  unfold dedentIndent at h
  by_cases hc : (l.takeWhile isSpaceTab).length < l.length
  · simp only [hc, if_true, Option.some.injEq] at h
    subst h
    exact List.takeWhile_prefix _
  · simp [hc] at h

/-- Captured indents consist of spaces and tabs. -/
theorem dedentIndent_spacetab {l ind : Str} (h : dedentIndent l = some ind) :
    ∀ c ∈ ind, isSpaceTab c := by
  unfold dedentIndent at h
  by_cases hc : (l.takeWhile isSpaceTab).length < l.length
  · simp only [hc, if_true, Option.some.injEq] at h
    subst h
    intro c hcmem
    exact List.mem_takeWhile_imp hcmem
  · simp [hc] at h

/-- A line with no captured indent is entirely spaces and tabs. -/
theorem dedentIndent_none {l : Str} (h : dedentIndent l = none) :
    ∀ c ∈ l, isSpaceTab c := by
  unfold dedentIndent at h
  by_cases hc : (l.takeWhile isSpaceTab).length < l.length
  · simp [hc] at h
  · have hle : (l.takeWhile isSpaceTab).length ≤ l.length :=
      (List.takeWhile_prefix _).length_le
    have heq : l.takeWhile isSpaceTab = l :=
      (List.takeWhile_prefix _).eq_of_length (by omega)
    intro c hcmem
    rw [← heq] at hcmem
    exact List.mem_takeWhile_imp hcmem

/-- Dropping a common space-tab prefix commutes with capturing the indent. -/
theorem dedentIndent_drop :
    ∀ (m l ind : Str), dedentIndent l = some ind → m <+: ind →
      dedentIndent (l.drop m.length) = some (ind.drop m.length) := by
  intro m
  induction m with
  | nil => intro l ind h _; simpa using h
  | cons x m' ih =>
    intro l ind h hpre
    obtain ⟨tind, rfl⟩ := hpre
    unfold dedentIndent at h
    by_cases hc : (l.takeWhile isSpaceTab).length < l.length
    · simp only [hc, if_true, Option.some.injEq] at h
      cases l with
      | nil => simp [List.takeWhile] at h
      | cons y l' =>
        rw [List.takeWhile_cons] at h
        by_cases hy : isSpaceTab y
        · simp only [hy, if_true, List.cons_append, List.cons.injEq] at h
          obtain ⟨rfl, h2⟩ := h
          have hrec : dedentIndent l' = some (m' ++ tind) := by
            unfold dedentIndent
            rw [h2]
            have hlen : (m' ++ tind).length < l'.length := by
              rw [List.takeWhile_cons, if_pos hy, h2] at hc
              simpa using hc
            simp only [List.length_append] at hlen
            simp [hlen]
          have := ih l' (m' ++ tind) hrec ⟨tind, rfl⟩
          simpa using this
        · simp only [hy, if_false, Bool.false_eq_true] at h
          exact absurd h.symm (List.cons_ne_nil x (m' ++ tind))
    · simp [hc] at h

/-- Stripping a common indent margin commutes with capturing the indents of
blank-normalized lines. -/
theorem filterMap_strip (m : Str) (hm : m ≠ []) :
    ∀ (L : List Str), (∀ l ∈ L, dedentBlank l = l) →
      (∀ l ind, l ∈ L → dedentIndent l = some ind → m <+: ind) →
      (L.map (fun l => if m.isPrefixOf l then l.drop m.length else l)).filterMap
          dedentIndent =
        (L.filterMap dedentIndent).map (fun i => i.drop m.length) := by
  intro L
  induction L with
  | nil => intro _ _; simp
  | cons l L' ih =>
    intro hblank hind
    simp only [List.map_cons, List.filterMap_cons]
    cases h : dedentIndent l with
    | some ind =>
      have hmind : m <+: ind := hind l ind (List.mem_cons_self _ _) h
      have hml : m <+: l := hmind.trans (dedentIndent_leads h)
      have hpf : m.isPrefixOf l = true := List.isPrefixOf_iff_prefix.2 hml
      rw [hpf]
      simp only [if_true]
      rw [dedentIndent_drop m l ind h hmind]
      rw [ih (fun x hx => hblank x (List.mem_cons_of_mem l hx))
        (fun x i hx hi => hind x i (List.mem_cons_of_mem l hx) hi)]
      simp
    | none =>
      have hst : ∀ c ∈ l, isSpaceTab c := dedentIndent_none h
      have hnil : l = [] := by
        by_contra hne
        have hb := hblank l (List.mem_cons_self _ _)
        unfold dedentBlank at hb
        have hcond : (!l.isEmpty && l.all isSpaceTab) = true := by
          simp only [Bool.and_eq_true, List.all_eq_true]
          exact ⟨by simpa [List.isEmpty_iff] using hne, hst⟩
        rw [hcond] at hb
        simp at hb
        exact hne hb
      subst hnil
      have hpf : m.isPrefixOf ([] : Str) = false := by
        cases m with
        | nil => exact absurd rfl hm
        | cons a t => rfl
      rw [hpf]
      simp only [Bool.false_eq_true, if_false]
      rw [h]
      exact ih (fun x hx => hblank x (List.mem_cons_of_mem _ hx))
        (fun x i hx hi => hind x i (List.mem_cons_of_mem _ hx) hi)

/-- The margin-stripping pass is idempotent on blank-normalized lines. -/
theorem dedentLines_idem (L : List Str) (hblank : ∀ l ∈ L, dedentBlank l = l) :
    dedentLines (dedentLines L) = dedentLines L := by
  cases hInd : L.filterMap dedentIndent with
  | nil =>
    have hD : dedentLines L = L := by unfold dedentLines; rw [hInd]
    rw [hD, hD]
  | cons i is =>
    by_cases hmE : (is.foldl lcp i).isEmpty
    · have hD : dedentLines L = L := by
        unfold dedentLines
        rw [hInd]
        simp [hmE]
      rw [hD, hD]
    · set m := is.foldl lcp i with hmdef
      have hm : m ≠ [] := by
        intro h
        rw [h] at hmE
        simp at hmE
      have hD : dedentLines L =
          L.map (fun l => if m.isPrefixOf l then l.drop m.length else l) := by
        unfold dedentLines
        rw [hInd]
        simp [hmE]
      have hcommon : ∀ x ∈ i :: is, m <+: x := foldl_lcp_common is i
      have hindm : ∀ l ind, l ∈ L → dedentIndent l = some ind → m <+: ind := by
        intro l ind hl hi
        refine hcommon ind ?_
        rw [← hInd]
        exact List.mem_filterMap.2 ⟨l, hl, hi⟩
      set D := dedentLines L with hDdef
      have hFM : D.filterMap dedentIndent =
          (i.drop m.length) :: is.map (fun x => x.drop m.length) := by
        rw [hD, filterMap_strip m hm L hblank hindm, hInd]
        simp
      have hm2 : (is.map (fun x => x.drop m.length)).foldl lcp (i.drop m.length) = [] := by
        rw [foldl_lcp_drop is i m hcommon, ← hmdef]
        simp
      conv_lhs => unfold dedentLines
      rw [hFM]
      simp [hm2]

/-- Margin stripping keeps lines newline-free and blank-normalized. -/
theorem dedentLines_pres (L : List Str) (hblank : ∀ l ∈ L, dedentBlank l = l)
    (hnl : ∀ l ∈ L, '\n' ∉ l) :
    ∀ l' ∈ dedentLines L, ('\n' ∉ l') ∧ dedentBlank l' = l' := by
  unfold dedentLines
  cases hInd : L.filterMap dedentIndent with
  | nil =>
    intro l' hl'
    exact ⟨hnl l' hl', hblank l' hl'⟩
  | cons i is =>
    by_cases hmE : (is.foldl lcp i).isEmpty
    · simp only [hmE, if_true]
      intro l' hl'
      exact ⟨hnl l' hl', hblank l' hl'⟩
    · simp only [hmE, Bool.false_eq_true, if_false]
      set m := is.foldl lcp i with hmdef
      have hmst : ∀ c ∈ m, isSpaceTab c := by
        intro c hc
        have hmi : m <+: i := foldl_lcp_common is i i (List.mem_cons_self _ _)
        have hii : i ∈ L.filterMap dedentIndent := by
          rw [hInd]; exact List.mem_cons_self _ _
        obtain ⟨l0, _, hl0⟩ := List.mem_filterMap.1 hii
        exact dedentIndent_spacetab hl0 c (hmi.subset hc)
      intro l' hl'
      obtain ⟨l, hl, rfl⟩ := List.mem_map.1 hl'
      by_cases hpf : m.isPrefixOf l
      · simp only [hpf, if_true]
        obtain ⟨tl, rfl⟩ := List.isPrefixOf_iff_prefix.1 hpf
        rw [List.drop_left]
        refine ⟨fun hmem => hnl _ hl (List.mem_append_right m hmem), ?_⟩
        cases htl : tl with
        | nil => rfl
        | cons a t =>
          unfold dedentBlank
          by_cases hall : (a :: t).all isSpaceTab
          · exfalso
            have hLall : (m ++ a :: t).all isSpaceTab := by
              rw [List.all_append]
              rw [Bool.and_eq_true]
              exact ⟨List.all_eq_true.2 hmst, hall⟩
            have := hblank (m ++ a :: t) (htl ▸ hl)
            unfold dedentBlank at this
            have hcond : (!(m ++ a :: t).isEmpty && (m ++ a :: t).all isSpaceTab) = true := by
              simp [hLall]
            rw [hcond] at this
            simp at this
          · simp [hall]
      · simp only [hpf, Bool.false_eq_true, if_false]
        exact ⟨hnl l hl, hblank l hl⟩

/-- `dedentLines` never empties a non-empty line list. -/
theorem dedentLines_ne_nil (L : List Str) (hL : L ≠ []) : dedentLines L ≠ [] := by
  unfold dedentLines
  cases L.filterMap dedentIndent with
  | nil => exact hL
  | cons i is =>
    by_cases hmE : (is.foldl lcp i).isEmpty
    · simp only [hmE, if_true]; exact hL
    · simp only [hmE, Bool.false_eq_true, if_false]
      simpa using hL

/-- C9: `dedent` is idempotent — `dedent(dedent(T)) == dedent(T)` for every
text `T`. -/
theorem C9_dedent_idempotent (t : Str) : twDedent (twDedent t) = twDedent t := by
  unfold twDedent
  set L := (pySplitOn ['\n'] t).map dedentBlank with hLdef
  set D := dedentLines L with hDdef
  have hL_blank : ∀ l ∈ L, dedentBlank l = l := by
    intro l hl
    rw [hLdef] at hl
    obtain ⟨x, _, rfl⟩ := List.mem_map.1 hl
    exact dedentBlank_idem x
  have hL_nl : ∀ l ∈ L, '\n' ∉ l := by
    intro l hl
    rw [hLdef] at hl
    obtain ⟨x, hx, rfl⟩ := List.mem_map.1 hl
    have hx' : '\n' ∉ x := pySplitOn_single_no_sep '\n' t x hx
    unfold dedentBlank
    by_cases hc : !x.isEmpty && x.all isSpaceTab
    · simp [hc]
    · simp only [hc, Bool.false_eq_true, if_false]
      exact hx'
  have hpres := dedentLines_pres L hL_blank hL_nl
  have hDne : D ≠ [] := by
    rw [hDdef]
    refine dedentLines_ne_nil L ?_
    rw [hLdef]
    simp [pySplitOn_ne_nil]
  have hsplit : pySplitOn ['\n'] (List.intercalate ['\n'] D) = D :=
    pySplitOn_single_intercalate '\n' D hDne
      (fun l hl => (hpres l (hDdef ▸ hl)).1)
  rw [hsplit]
  have hmap : D.map dedentBlank = D := by
    calc D.map dedentBlank = D.map id :=
          List.map_congr_left (fun l hl => (hpres l (hDdef ▸ hl)).2)
      _ = D := List.map_id D
  rw [hmap]
  have hidem : dedentLines D = D := by
    rw [hDdef]
    exact dedentLines_idem L hL_blank
  rw [hidem]

/-!
## Claim C3: transformation branch precedence in `format_file`
-/

/-- The claim's reading of `format_file`: dedent first and unconditionally
when requested, then exactly one of shorten / preserve-paragraphs / prefix /
default fill, where an option counts as requested whenever it was provided.
-/
def transformContentClaim (args : CliArgs) (fm : WrapCfg) (content : Str) :
    Except PyExc Str :=
  let c := if args.dedent then tfDedent content else content
  match args.shorten with
  | some n => tfShorten c n ("...".toList)
  | none =>
    if args.preserveParagraphs then tfFormatParagraphs fm c
    else
      match args.pfx with
      | some p => tfFormatWithPfx fm c p
      | none => tfFill fm c

/-- The amended claim: as `transformContentClaim`, but the shorten branch is
taken only when the requested shorten width is nonzero (Python truthiness of
`options.shorten` skips the branch for `--shorten 0`). -/
def transformContentAmended (args : CliArgs) (fm : WrapCfg) (content : Str) :
    Except PyExc Str :=
  let c := if args.dedent then tfDedent content else content
  match args.shorten with
  | some n =>
    if n ≠ 0 then tfShorten c n ("...".toList)
    else if args.preserveParagraphs then tfFormatParagraphs fm c
    else
      match args.pfx with
      | some p => tfFormatWithPfx fm c p
      | none => tfFill fm c
  | none =>
    if args.preserveParagraphs then tfFormatParagraphs fm c
    else
      match args.pfx with
      | some p => tfFormatWithPfx fm c p
      | none => tfFill fm c

/-- Options of the C3 counterexample run: `--shorten 0 --preserve-paragraphs`.
-/
def c3Args : CliArgs :=
  { input := some ("f.txt".toList), shorten := some 0, preserveParagraphs := true }

/-- C3 counterexample: with `--shorten 0` the code does not take the shorten
branch (it formats paragraphs instead), so the claim's branch selection is
wrong as stated. -/
theorem C3_counterexample :
    transformContent c3Args (cliFormatter c3Args) ("hello".toList) = .ok ("hello".toList) ∧
    transformContentClaim c3Args (cliFormatter c3Args) ("hello".toList) =
      .error (.valueError "invalid width") ∧
    transformContent c3Args (cliFormatter c3Args) ("hello".toList) ≠
      transformContentClaim c3Args (cliFormatter c3Args) ("hello".toList) := by
  refine ⟨by decide, by decide, by decide⟩

/-- An empty prefix makes `format_with_prefix` coincide with plain `fill`
under the driver's formatter (same constructed configuration). -/
theorem formatWithPfx_empty (w : Int) (b : Bool) (text : Str) :
    tfFormatWithPfx (mkFormatter w b) text [] = tfFill (mkFormatter w b) text := rfl

/-- C3 (amended): the driver's transformation equals the amended branch
selection — dedent first and unconditionally when requested, then exactly
one of shorten (nonzero width) / preserve-paragraphs / prefix / fill by
precedence — for every option combination and every content. -/
theorem C3_branch_precedence (args : CliArgs) (content : Str) :
    transformContent args (cliFormatter args) content =
      transformContentAmended args (cliFormatter args) content := by
  unfold transformContent transformContentAmended truthyI truthyS
  cases hs : args.shorten with
  | some n =>
    by_cases hn : n = 0
    · subst hn
      by_cases hp : args.preserveParagraphs
      · simp [hp]
      · cases hpfx : args.pfx with
        | none => simp [hp]
        | some p =>
          cases p with
          | nil =>
            simp only [hp, Bool.false_eq_true, if_false, List.isEmpty_nil,
              Bool.not_true, ne_eq, not_true_eq_false, decide_eq_true_eq]
            rfl
          | cons a q =>
            simp [hp]
    · simp [hn]
  | none =>
    by_cases hp : args.preserveParagraphs
    · simp [hp]
    · cases hpfx : args.pfx with
      | none => simp [hp]
      | some p =>
        cases p with
        | nil =>
          simp only [hp, Bool.false_eq_true, if_false, List.isEmpty_nil,
            Bool.not_true]
          rfl
        | cons a q =>
          simp [hp]

/-!
## Claim C6: `read_file` error taxonomy

The first three branches behave as documented.  On undecodable bytes,
however, the `except UnicodeDecodeError` clause re-raises with
`UnicodeDecodeError(f"...")` — a single argument, while that constructor
requires five — so the handler itself raises `TypeError` and the caller
never sees a decode error.  This contradicts the method's documented
`Raises: UnicodeDecodeError`.
-/

/-- The C6 filesystem: a missing path, a directory, an unreadable file, a
well-formed file and a file whose single byte `0xFF` is invalid UTF-8. -/
def c6FS : FS :=
  { lookup := fun p =>
      if p = "d".toList then some (.directory [])
      else if p = "secret.txt".toList then some (.file false (utf8Encode "x".toList))
      else if p = "ok.txt".toList then some (.file true (utf8Encode "hi".toList))
      else if p = "bad.txt".toList then some (.file true [0xFF])
      else none,
    writable := fun _ => true }

/-- C6: the taxonomy of `read_file` on the model filesystem.  The missing
path, the non-file and the unreadable file fail distinguishably and the
well-formed file is read in full — but the undecodable file raises
`TypeError` (from the malformed `UnicodeDecodeError` construction), not a
decode error, contradicting the documented behaviour. -/
theorem C6_read_file_taxonomy :
    readFileM c6FS ("missing.txt".toList) = .error (.fileNotFoundError "file not found") ∧
    readFileM c6FS ("d".toList) = .error (.valueError "path is not a file") ∧
    readFileM c6FS ("secret.txt".toList) = .error (.permissionError "no read permission") ∧
    readFileM c6FS ("ok.txt".toList) = .ok ("hi".toList) ∧
    readFileM c6FS ("bad.txt".toList) =
      .error (.typeError "function takes exactly 5 arguments (1 given)") := by
  refine ⟨by decide, by decide, by decide, by decide, by decide⟩

/-!
## Claim C10: `--output-file` is silently ignored for multiple inputs
-/

/-- C10: when the resolved file set has at least two files, a run with an
explicit `--output-file` behaves identically to the same run without it —
the option is silently ignored for every file (falling back to the output
directory or standard output) and no usage error is reported. -/
theorem C10_output_file_ignored (fs : FS) (args : CliArgs)
    (interruptAt : Option Nat) (files : List Str)
    (hin : ¬truthyS args.input) (hdir : truthyS args.directory)
    (hfind : findTextFiles fs (args.directory.getD []) none = .ok files)
    (hlen : 2 ≤ files.length) :
    mainModel fs args interruptAt =
      mainModel fs { args with outputFile := none } interruptAt := by
  have hproc : ∀ (fs' : FS) (f : Str),
      processOne fs' args files.length f =
        processOne fs' { args with outputFile := none } files.length f := by
    intro fs' f
    unfold processOne
    have hne1 : files.length ≠ 1 := by omega
    have hfmt : formatFileM fs' args f =
        formatFileM fs' { args with outputFile := none } f := rfl
    rw [← hfmt]
    cases formatFileM fs' args f with
    | error e => rfl
    | ok s =>
      simp only [hne1, and_false, Bool.and_eq_true, decide_eq_true_eq,
        if_false]
  have hrun : ∀ (fs' : FS) (i : Nat) (fl : List Str),
      runFiles args files.length interruptAt fs' i fl =
        runFiles { args with outputFile := none } files.length interruptAt fs' i fl := by
    intro fs' i fl
    induction fl generalizing fs' i with
    | nil => rfl
    | cons f rest ih =>
      unfold runFiles
      by_cases hi : interruptAt = some i
      · simp [hi]
      · simp only [hi, if_false]
        rw [← hproc fs' f]
        cases processOne fs' args files.length f with
        | mk fs'' rest2 =>
          cases rest2 with
          | mk evs counted =>
            rw [ih]
  unfold mainModel
  have hin2 : truthyS args.input = false := by simpa using hin
  have hc1 : (!truthyS args.input && !truthyS args.directory) = false := by
    simp [hdir]
  dsimp only
  simp only [hc1, Bool.false_eq_true, if_false, hin2]
  rw [hfind]
  cases files with
  | nil => simp at hlen
  | cons f rest =>
    simp only [hdir, Bool.not_true, Bool.and_false, Bool.false_eq_true, if_false]
    unfold runMain
    rw [hrun fs 0 (f :: rest)]

/-- The C10 filesystem: a directory with two matching text files. -/
def c10FS : FS :=
  { lookup := fun p =>
      if p = "d".toList then some (.directory ["a.txt".toList, "b.txt".toList])
      else if p = "d/a.txt".toList then some (.file true (utf8Encode "hi".toList))
      else if p = "d/b.txt".toList then some (.file true (utf8Encode "yo".toList))
      else none,
    writable := fun _ => true }

/-- The C10 options: batch mode plus an explicit `--output-file`. -/
def c10Args : CliArgs :=
  { directory := some ("d".toList), outputFile := some ("out.txt".toList) }

/-- Witness for C10 at a concrete two-file directory. -/
theorem C10_witness :
    mainModel c10FS c10Args none =
      mainModel c10FS { c10Args with outputFile := none } none :=
  C10_output_file_ignored c10FS c10Args none
    ["d/a.txt".toList, "d/b.txt".toList] (by decide) (by decide) (by decide)
    (by decide)

/-!
## Claim C7: directory listing by extension
-/

/-- Literal (star-free) patterns match exactly themselves. -/
theorem fnmatchStar_literal :
    ∀ (fuel : Nat) (p n : Str), p.length + n.length < fuel → '*' ∉ p →
      (fnmatchStar fuel p n = true ↔ p = n) := by
  intro fuel
  induction fuel with
  | zero => intro p n h _; exact absurd h (Nat.not_lt_zero _)
  | succ f ih =>
    intro p n h hstar
    cases p with
    | nil =>
      simp only [fnmatchStar]
      cases n with
      | nil => simp
      | cons d ns => simp
    | cons c ps =>
      have hc : ¬(c = '*') := fun hcc => hstar (hcc ▸ List.mem_cons_self c ps)
      simp only [fnmatchStar, hc, if_false]
      cases n with
      | nil => simp
      | cons d ns =>
        rw [Bool.and_eq_true, decide_eq_true_eq]
        rw [ih ps ns (by simp at h ⊢; omega)
          (fun hm => hstar (List.mem_cons_of_mem c hm))]
        constructor
        · rintro ⟨rfl, rfl⟩; rfl
        · intro hccc
          injection hccc with h1 h2
          exact ⟨h1, h2⟩

/-- A `"*" ++ ext` glob pattern with a literal extension matches exactly the
names ending in that extension. -/
theorem fnmatchStar_star_suffix :
    ∀ (n : Str) (fuel : Nat) (ext : Str), ext.length + n.length + 1 < fuel →
      '*' ∉ ext → (fnmatchStar fuel ('*' :: ext) n = true ↔ ext <:+ n) := by
  intro n
  induction n with
  | nil =>
    intro fuel ext h hstar
    cases fuel with
    | zero => exact absurd h (Nat.not_lt_zero _)
    | succ f =>
      simp only [fnmatchStar, if_true]
      rw [Bool.or_eq_true]
      rw [fnmatchStar_literal f ext [] (by simp at h ⊢; omega) hstar]
      simp [List.suffix_nil]
  | cons d ns ih =>
    intro fuel ext h hstar
    cases fuel with
    | zero => exact absurd h (Nat.not_lt_zero _)
    | succ f =>
      simp only [fnmatchStar, if_true]
      rw [Bool.or_eq_true]
      rw [fnmatchStar_literal f ext (d :: ns) (by simp at h ⊢; omega) hstar]
      rw [ih f ext (by simp at h ⊢; omega) hstar]
      rw [List.suffix_cons_iff]

/-- `globMatch` decides the ends-with relation for literal extensions. -/
theorem globMatch_iff_suffix (ext n : Str) (hstar : '*' ∉ ext) :
    globMatch ext n = true ↔ ext <:+ n := by
  unfold globMatch
  exact fnmatchStar_star_suffix n (ext.length + n.length + 2) ext (by omega) hstar

theorem strLe_total : ∀ (a b : Str), strLe a b = true ∨ strLe b a = true := by
  intro a
  induction a with
  | nil => intro b; left; rfl
  | cons x as ih =>
    intro b
    cases b with
    | nil => right; rfl
    | cons y bs =>
      by_cases hxy : x = y
      · subst hxy
        simp only [strLe, if_true]
        exact ih bs
      · rcases lt_or_gt_of_ne hxy with hlt | hgt
        · left; simp [strLe, hxy, hlt]
        · right
          have hyx : ¬(y = x) := fun hv => hxy hv.symm
          simp [strLe, hyx]
          exact hgt

theorem strLe_trans : ∀ (a b c : Str), strLe a b = true → strLe b c = true →
    strLe a c = true := by
  intro a
  induction a with
  | nil => intro b c _ _; rfl
  | cons x as ih =>
    intro b c hab hbc
    cases b with
    | nil => simp [strLe] at hab
    | cons y bs =>
      cases c with
      | nil => simp [strLe] at hbc
      | cons z cs =>
        by_cases hxy : x = y <;> by_cases hyz : y = z
        · subst hxy; subst hyz
          simp only [strLe, if_true] at hab hbc ⊢
          exact ih bs cs hab hbc
        · subst hxy
          simp only [strLe, if_true] at hab
          simp only [strLe, hyz, if_false, decide_eq_true_eq] at hbc
          simp [strLe, hyz, hbc]
        · subst hyz
          simp only [strLe, hxy, if_false, decide_eq_true_eq] at hab
          simp [strLe, hxy, hab]
        · simp only [strLe, hxy, if_false, decide_eq_true_eq] at hab
          simp only [strLe, hyz, if_false, decide_eq_true_eq] at hbc
          have hxz : x < z := lt_trans hab hbc
          have hxz' : ¬(x = z) := fun hv => absurd (hv ▸ hxz) (lt_irrefl z)
          simp [strLe, hxz', hxz]

theorem insertStr_perm (x : Str) : ∀ (l : List Str), (insertStr x l).Perm (x :: l) := by
  intro l
  induction l with
  | nil => simp [insertStr]
  | cons y ys ih =>
    unfold insertStr
    by_cases h : strLe x y
    · simp [h]
    · simp only [h, Bool.false_eq_true, if_false]
      exact (ih.cons y).trans (List.Perm.swap x y ys)

theorem sortStr_perm : ∀ (l : List Str), (sortStr l).Perm l := by
  intro l
  induction l with
  | nil => simp [sortStr]
  | cons x xs ih =>
    unfold sortStr
    exact (insertStr_perm x (sortStr xs)).trans (ih.cons x)

theorem insertStr_sorted (x : Str) :
    ∀ (l : List Str), l.Pairwise (fun a b => strLe a b = true) →
      (insertStr x l).Pairwise (fun a b => strLe a b = true) := by
  intro l
  induction l with
  | nil => intro _; simp [insertStr]
  | cons y ys ih =>
    intro hs
    rw [List.pairwise_cons] at hs
    unfold insertStr
    by_cases h : strLe x y
    · simp only [h, if_true]
      rw [List.pairwise_cons]
      constructor
      · intro z hz
        rcases List.mem_cons.1 hz with rfl | hz'
        · exact h
        · exact strLe_trans x y z h (hs.1 z hz')
      · rw [List.pairwise_cons]
        exact hs
    · simp only [h, Bool.false_eq_true, if_false]
      rw [List.pairwise_cons]
      constructor
      · intro z hz
        have hz2 := (insertStr_perm x ys).mem_iff.1 hz
        rcases List.mem_cons.1 hz2 with rfl | hz'
        · rcases strLe_total y z with hyx | hxy2
          · exact hyx
          · exact absurd hxy2 h
        · exact hs.1 z hz'
      · exact ih hs.2

theorem sortStr_sorted : ∀ (l : List Str),
    (sortStr l).Pairwise (fun a b => strLe a b = true) := by
  intro l
  induction l with
  | nil => simp [sortStr]
  | cons x xs ih => exact insertStr_sorted x (sortStr xs) ih

theorem pathJoin_inj (d : Str) {a b : Str} (h : pathJoin d a = pathJoin d b) :
    a = b := by
  unfold pathJoin at h
  by_cases hd : d = ['.']
  · simpa [hd] using h
  · simp only [hd, if_false] at h
    have := List.append_cancel_left h
    injection this

/-- The concatenated glob results are duplicate-free when the directory
names are and no extension is a suffix of another. -/
theorem c7_files_nodup (dir : Str) (names : List Str) (hnodup : names.Nodup) :
    ∀ (exts : List Str), (∀ e ∈ exts, '*' ∉ e) →
      exts.Pairwise (fun a b => ¬(a <:+ b) ∧ ¬(b <:+ a)) →
      (exts.flatMap
        (fun ext => (names.filter (globMatch ext)).map (pathJoin dir))).Nodup := by
  intro exts
  induction exts with
  | nil => intro _ _; simp
  | cons e es ih =>
    intro hlit hpair
    rw [List.pairwise_cons] at hpair
    rw [List.flatMap_cons, List.nodup_append]
    refine ⟨?_, ih (fun x hx => hlit x (List.mem_cons_of_mem e hx)) hpair.2, ?_⟩
    · exact (hnodup.filter (globMatch e)).map (fun a b h => pathJoin_inj dir h)
    · intro p hp1 hp2
      obtain ⟨n1, hn1, rfl⟩ := List.mem_map.1 hp1
      obtain ⟨e', he', hpe'⟩ := List.mem_flatMap.1 hp2
      obtain ⟨n2, hn2, heq⟩ := List.mem_map.1 hpe'
      have hnn : n2 = n1 := pathJoin_inj dir heq
      subst hnn
      have hs1 : e <:+ n2 :=
        (globMatch_iff_suffix e n2 (hlit e (List.mem_cons_self _ _))).1
          (List.mem_filter.1 hn1).2
      have hs2 : e' <:+ n2 :=
        (globMatch_iff_suffix e' n2 (hlit e' (List.mem_cons_of_mem e he'))).1
          (List.mem_filter.1 hn2).2
      rcases List.suffix_or_suffix_of_suffix hs1 hs2 with hss | hss
      · exact (hpair.1 e' he').1 hss
      · exact (hpair.1 e' he').2 hss

/-- The C7 filesystem: a directory containing one text file. -/
def c7FS : FS :=
  { lookup := fun p =>
      if p = "d".toList then some (.directory ["a.txt".toList])
      else if p = "d/a.txt".toList then some (.file true (utf8Encode "hi".toList))
      else none,
    writable := fun _ => true }

/-- C7 counterexample: with the overlapping extension list `[".txt", "txt"]`
the same file matches both globs and the returned list contains it twice, so
"no duplicate entries" fails as stated. -/
theorem C7_counterexample :
    findTextFiles c7FS ("d".toList) (some [".txt".toList, "txt".toList]) =
      .ok ["d/a.txt".toList, "d/a.txt".toList] ∧
    ¬(["d/a.txt".toList, "d/a.txt".toList] : List Str).Nodup := by
  refine ⟨by decide, by decide⟩

/-- C7 (amended): for an existing directory and literal extensions of which
none is a suffix of another, `find_text_files` returns exactly the regular
files directly inside the directory whose names end with one of the
extensions, sorted ascending by path string and free of duplicates. -/
theorem C7_find_text_files (fs : FS) (dir : Str) (names : List Str)
    (exts : List Str) (l : List Str)
    (hdir : fs.lookup dir = some (.directory names))
    (hnodup : names.Nodup)
    (hlit : ∀ e ∈ exts, '*' ∉ e)
    (hpair : exts.Pairwise (fun a b => ¬(a <:+ b) ∧ ¬(b <:+ a)))
    (hres : findTextFiles fs dir (some exts) = .ok l) :
    l.Pairwise (fun a b => strLe a b = true) ∧ l.Nodup ∧
    ∀ p, (p ∈ l ↔ ∃ n ∈ names, p = pathJoin dir n ∧ isFileAt fs p = true ∧
      ∃ e ∈ exts, e <:+ n) := by
  unfold findTextFiles at hres
  rw [hdir] at hres
  simp only [Option.getD_some] at hres
  rw [Except.ok.injEq] at hres
  subst hres
  refine ⟨sortStr_sorted _, ?_, ?_⟩
  · exact (sortStr_perm _).symm.nodup
      ((c7_files_nodup dir names hnodup exts hlit hpair).filter _)
  · intro p
    rw [(sortStr_perm _).mem_iff, List.mem_filter]
    constructor
    · rintro ⟨hmem, hfile⟩
      obtain ⟨e, he, hpe⟩ := List.mem_flatMap.1 hmem
      obtain ⟨n, hn, rfl⟩ := List.mem_map.1 hpe
      refine ⟨n, (List.mem_filter.1 hn).1, rfl, hfile, e, he, ?_⟩
      exact (globMatch_iff_suffix e n (hlit e he)).1 (List.mem_filter.1 hn).2
    · rintro ⟨n, hn, rfl, hfile, e, he, hsuf⟩
      refine ⟨?_, hfile⟩
      refine List.mem_flatMap.2 ⟨e, he, ?_⟩
      refine List.mem_map.2 ⟨n, ?_, rfl⟩
      exact List.mem_filter.2 ⟨hn, (globMatch_iff_suffix e n (hlit e he)).2 hsuf⟩

/-- Witness for C7 (amended) on a concrete directory. -/
theorem C7_witness :
    (["d/a.txt".toList] : List Str).Pairwise (fun a b => strLe a b = true) ∧
    (["d/a.txt".toList] : List Str).Nodup ∧
    ("d/a.txt".toList ∈ (["d/a.txt".toList] : List Str) ↔
      ∃ n ∈ ["a.txt".toList], "d/a.txt".toList = pathJoin ("d".toList) n ∧
        isFileAt c7FS ("d/a.txt".toList) = true ∧ ∃ e ∈ [".txt".toList], e <:+ n) :=
  have h := C7_find_text_files c7FS ("d".toList) ["a.txt".toList] [".txt".toList]
    ["d/a.txt".toList] (by decide) (by decide) (by decide) (by decide) (by decide)
  ⟨h.1, h.2.1, h.2.2 ("d/a.txt".toList)⟩

/-!
## Claim C8: exit status of the driver
-/

/-- The C8 counterexample filesystem: one readable file containing a single
space. -/
def c8FS : FS :=
  { lookup := fun p =>
      if p = "f.txt".toList then some (.file true [0x20]) else none,
    writable := fun _ => true }

/-- The C8 counterexample options: a single input file, defaults otherwise.
-/
def c8Args : CliArgs := { input := some ("f.txt".toList) }

/-- C8 counterexample: the run's only file is found, read and transformed
without any failure (to the empty string, since the content is whitespace),
yet the driver exits with status 1 — `main` skips empty non-verbose results
without counting them, so "exit 1 only when no files were found or every
file failed" is false as stated. -/
theorem C8_counterexample :
    (mainModel c8FS c8Args none).1 = 1 ∧
    formatFileM c8FS c8Args ("f.txt".toList) = .ok [] := by
  refine ⟨by decide, by decide⟩

/-- General characterization of the per-file step, for every option
combination: `processed_count` is incremented exactly when the file is
processed through to output. -/
theorem processOne_char (fs : FS) (args : CliArgs) (nfiles : Nat) (f : Str) :
    (processOne fs args nfiles f).2.2 = true ↔ processedToOutput fs args nfiles f := by
  unfold processOne processedToOutput
  cases hfmt : formatFileM fs args f with
  | error e => simp
  | ok s =>
    simp only [Except.ok.injEq]
    by_cases hskip : (s.isEmpty && !args.verbose) = true
    · rw [if_pos hskip]
      simp only [Bool.and_eq_true, Bool.not_eq_true'] at hskip
      have hs0 : s = [] := by simpa [List.isEmpty_iff] using hskip.1
      simp [hs0, hskip.2]
    · rw [if_neg hskip]
      have hnskip : ¬(s = [] ∧ args.verbose = false) := by
        rintro ⟨h1, h2⟩
        exact hskip (by simp [h1, h2])
      by_cases hc1 : (truthyS args.outputFile && decide (nfiles = 1)) = true
      · have hc1p : truthyS args.outputFile = true ∧ nfiles = 1 := by
          simpa [Bool.and_eq_true] using hc1
        rw [if_pos hc1]
        cases hw : writeFileM fs (args.outputFile.getD []) s with
        | ok fs2 =>
          refine ⟨fun _ => ⟨s, rfl, hnskip, fun _ => ⟨fs2, hw⟩, fun hn => absurd hc1p hn⟩,
            fun _ => rfl⟩
        | error e =>
          dsimp only
          refine ⟨fun h => absurd h (by decide), fun hP => ?_⟩
          obtain ⟨s2, rfl, _, himp1, _⟩ := hP
          obtain ⟨fs2, hw2⟩ := himp1 hc1p
          rw [hw] at hw2
          exact Except.noConfusion hw2
      · have hc1p : ¬(truthyS args.outputFile = true ∧ nfiles = 1) := by
          intro h
          exact hc1 (by simp [Bool.and_eq_true, h.1, h.2])
        rw [if_neg hc1]
        by_cases hc2 : truthyS args.output = true
        · rw [if_pos hc2]
          cases hw : writeFileM fs (getOutputPath f args.output ("_formatted".toList)) s with
          | ok fs2 =>
            refine ⟨fun _ => ⟨s, rfl, hnskip, fun hp => absurd hp hc1p, fun _ _ => ⟨fs2, hw⟩⟩,
              fun _ => rfl⟩
          | error e =>
            dsimp only
            refine ⟨fun h => absurd h (by decide), fun hP => ?_⟩
            obtain ⟨s2, rfl, _, _, himp2⟩ := hP
            obtain ⟨fs2, hw2⟩ := himp2 hc1p hc2
            rw [hw] at hw2
            exact Except.noConfusion hw2
        · rw [if_neg hc2]
          refine ⟨fun _ => ⟨s, rfl, hnskip, fun hp => absurd hp hc1p,
            fun _ hp2 => absurd hp2 hc2⟩, fun _ => rfl⟩

/-- Without an interrupt the loop never exits early, and the final
`processed_count` is positive exactly when some file of the list, visited
with the filesystem current at that point, is processed through to output.
-/
theorem runFiles_none_char (args : CliArgs) (nfiles : Nat) :
    ∀ (fl : List Str) (fs : FS) (i : Nat),
      (runFiles args nfiles none fs i fl).2.2 = none ∧
      ((runFiles args nfiles none fs i fl).1 > 0 ↔
        ∃ p f rest, fl = p ++ f :: rest ∧
          processedToOutput (loopFS args nfiles fs p) args nfiles f) := by
  intro fl
  induction fl with
  | nil =>
    intro fs i
    refine ⟨rfl, ?_⟩
    constructor
    · intro h
      simp [runFiles] at h
    · rintro ⟨p, f, rest, hdec, _⟩
      exact absurd hdec.symm (List.append_ne_nil_of_right_ne_nil p (by simp))
  | cons f fl2 ih =>
    intro fs i
    unfold runFiles
    rw [if_neg (by simp : ¬((none : Option Nat) = some i))]
    cases hpo : processOne fs args nfiles f with
    | mk fs2 r2 =>
      obtain ⟨evs, counted⟩ := r2
      obtain ⟨hex, hiff⟩ := ih fs2 (i + 1)
      dsimp only
      refine ⟨hex, ?_⟩
      have hcnt : counted = true ↔ processedToOutput fs args nfiles f := by
        have h0 := processOne_char fs args nfiles f
        rw [hpo] at h0
        exact h0
      have hthread : ∀ p : List Str, loopFS args nfiles fs (f :: p) =
          loopFS args nfiles fs2 p := by
        intro p
        show loopFS args nfiles (processOne fs args nfiles f).1 p = loopFS args nfiles fs2 p
        rw [hpo]
      constructor
      · intro hpos
        cases hcd : counted with
        | true =>
          refine ⟨[], f, fl2, rfl, ?_⟩
          have h1 := hcnt.1 hcd
          simpa [loopFS] using h1
        | false =>
          rw [hcd] at hpos
          simp only [Bool.false_eq_true, if_false, Nat.zero_add] at hpos
          obtain ⟨p, f2, rest, hdec, hP⟩ := hiff.1 hpos
          refine ⟨f :: p, f2, rest, by rw [List.cons_append, hdec], ?_⟩
          rw [hthread p]
          exact hP
      · rintro ⟨p, f2, rest, hdec, hP⟩
        cases p with
        | nil =>
          simp only [List.nil_append, List.cons.injEq] at hdec
          obtain ⟨rfl, rfl⟩ := hdec
          have hcd : counted = true := hcnt.2 (by simpa [loopFS] using hP)
          rw [hcd]
          simp
        | cons a p2 =>
          simp only [List.cons_append, List.cons.injEq] at hdec
          obtain ⟨rfl, hdec2⟩ := hdec
          have hc : (runFiles args nfiles none fs2 (i + 1) fl2).1 > 0 := by
            apply hiff.2
            exact ⟨p2, f2, rest, hdec2, by rw [← hthread p2]; exact hP⟩
          cases counted <;> simp
          omega

/-- An interrupt at an index inside the remaining file list aborts the loop
with exit code 130. -/
theorem c8_runFiles_interrupt (args : CliArgs) (nfiles : Nat) (i0 : Nat) :
    ∀ (fl : List Str) (fs : FS) (i : Nat), i ≤ i0 → i0 < i + fl.length →
      (runFiles args nfiles (some i0) fs i fl).2.2 = some 130 := by
  intro fl
  induction fl with
  | nil =>
    intro fs i h1 h2
    simp at h2
    omega
  | cons f rest ih =>
    intro fs i h1 h2
    unfold runFiles
    by_cases hi : i0 = i
    · subst hi
      rw [if_pos rfl]
    · rw [if_neg (fun h => hi (Option.some.inj h))]
      cases processOne fs args nfiles f with
      | mk fs' r2 =>
        obtain ⟨evs, counted⟩ := r2
        have hrec := ih fs' (i + 1) (by omega) (by simp at h2 ⊢; omega)
        dsimp only
        exact hrec

/-- C8 (amended), for every run that passes usage validation — either
resolution mode, any output routing, verbose or not: an empty resolved
directory yields exit status 1 with the no-files report; without an
interrupt the exit status is 0 exactly when some file, against the
filesystem as of its turn in the loop, is processed through to output, and
1 otherwise; an interrupt during the loop yields exit status 130. -/
theorem C8_exit_status (fs : FS) (args : CliArgs) (interruptAt : Option Nat)
    (files : List Str)
    (hres : (truthyS args.input = true ∧ files = [args.input.getD []]) ∨
      (truthyS args.input = false ∧ truthyS args.directory = true ∧
        findTextFiles fs (args.directory.getD []) none = .ok files)) :
    (files = [] → mainModel fs args interruptAt = (1, [.err "no text files found"])) ∧
    (interruptAt = none →
      (((mainModel fs args none).1 = 0 ↔
        ∃ p f rest, files = p ++ f :: rest ∧
          processedToOutput (loopFS args files.length fs p) args files.length f) ∧
       ((mainModel fs args none).1 = 1 ↔
        ¬∃ p f rest, files = p ++ f :: rest ∧
          processedToOutput (loopFS args files.length fs p) args files.length f))) ∧
    (∀ i0, interruptAt = some i0 → i0 < files.length →
      (mainModel fs args interruptAt).1 = 130) := by
  have hm : ∀ (intr : Option Nat), files ≠ [] →
      mainModel fs args intr = runMain fs args intr files := by
    intro intr hne
    unfold mainModel
    rcases hres with ⟨hin, hfl⟩ | ⟨hin, hdir, hfind⟩
    · rw [hfl]
      simp [hin]
    · simp only [hin, hdir, Bool.not_false, Bool.not_true, Bool.and_false,
        Bool.false_eq_true, if_false]
      rw [hfind]
      cases files with
      | nil => exact absurd rfl hne
      | cons f r => rfl
  have hnil : files = [] → mainModel fs args interruptAt =
      (1, [.err "no text files found"]) := by
    intro h0
    rcases hres with ⟨hin, hfl⟩ | ⟨hin, hdir, hfind⟩
    · rw [h0] at hfl
      exact absurd hfl (by simp)
    · unfold mainModel
      simp only [hin, hdir, Bool.not_false, Bool.not_true, Bool.and_false,
        Bool.false_eq_true, if_false]
      rw [hfind, h0]
  refine ⟨hnil, ?_, ?_⟩
  · intro hia
    subst hia
    by_cases hfe : files = []
    · have h1 := hnil hfe
      rw [h1]
      subst hfe
      constructor
      · constructor
        · intro h
          simp at h
        · rintro ⟨p, f, rest, hdec, _⟩
          exact absurd hdec.symm (List.append_ne_nil_of_right_ne_nil p (by simp))
      · constructor
        · rintro _ ⟨p, f, rest, hdec, _⟩
          exact absurd hdec.symm (List.append_ne_nil_of_right_ne_nil p (by simp))
        · intro _
          rfl
    · rw [hm none hfe]
      unfold runMain
      obtain ⟨hex0, hiff⟩ := runFiles_none_char args files.length files fs 0
      have hsplit : runFiles args files.length none fs 0 files =
          ((runFiles args files.length none fs 0 files).1,
           (runFiles args files.length none fs 0 files).2.1, (none : Option Int)) := by
        rw [← hex0]
      rw [hsplit]
      dsimp only
      rcases Nat.eq_zero_or_pos (runFiles args files.length none fs 0 files).1 with hc | hc
      · have hnex : ¬∃ p f rest, files = p ++ f :: rest ∧
            processedToOutput (loopFS args files.length fs p) args files.length f := by
          intro h
          have h2 := hiff.2 h
          omega
        have hif : (if (runFiles args files.length none fs 0 files).1 > 0 then (0 : Int)
            else 1) = 1 := by
          rw [if_neg (by omega)]
        rw [hif]
        exact ⟨⟨fun h => absurd h (by norm_num), fun h => absurd h hnex⟩,
          ⟨fun _ => hnex, fun _ => rfl⟩⟩
      · have hP := hiff.1 hc
        have hif : (if (runFiles args files.length none fs 0 files).1 > 0 then (0 : Int)
            else 1) = 0 := by
          rw [if_pos (by omega)]
        rw [hif]
        exact ⟨⟨fun _ => hP, fun _ => rfl⟩,
          ⟨fun h => absurd h (by norm_num), fun h => absurd hP h⟩⟩
  · intro i0 hintr hlt
    subst hintr
    have hne : files ≠ [] := by
      intro h
      rw [h] at hlt
      simp at hlt
    rw [hm (some i0) hne]
    unfold runMain
    have h130 := c8_runFiles_interrupt args files.length i0 files fs 0
      (by omega) (by omega)
    have hsplit : runFiles args files.length (some i0) fs 0 files =
        ((runFiles args files.length (some i0) fs 0 files).1,
         (runFiles args files.length (some i0) fs 0 files).2.1, some (130 : Int)) := by
      rw [← h130]
    rw [hsplit]

/-- The C8 witness filesystem: a directory with one non-empty text file. -/
def c8wFS : FS :=
  { lookup := fun p =>
      if p = "d".toList then some (.directory ["a.txt".toList])
      else if p = "d/a.txt".toList then some (.file true (utf8Encode "hi".toList))
      else none,
    writable := fun _ => true }

/-- The C8 witness options: batch mode over the directory, defaults
otherwise. -/
def c8wArgs : CliArgs := { directory := some ("d".toList) }

/-- Witness for C8 (amended) at a concrete run that processes one file. -/
theorem C8_witness : (mainModel c8wFS c8wArgs none).1 = 0 :=
  ((C8_exit_status c8wFS c8wArgs none ["d/a.txt".toList]
      (Or.inr ⟨by decide, by decide, by decide⟩)).2.1 rfl).1.2
    ⟨[], "d/a.txt".toList, [], rfl,
      "hi".toList, by decide, by decide,
      fun h => absurd h.1 (by decide),
      fun _ h2 => absurd h2 (by decide)⟩

/-!
## Facts about the wrapping machinery
-/

theorem lensum_append (a b : List Str) : lensum (a ++ b) = lensum a + lensum b := by
  simp [lensum]

theorem lensum_flatten (l : List Str) : l.flatten.length = lensum l := by
  simp [lensum, List.length_flatten]

theorem prefix_append_drop {p l : Str} (h : p <+: l) : p ++ l.drop p.length = l := by
  obtain ⟨t, rfl⟩ := h
  rw [List.drop_left]

/-- The chunks taken into the current line followed by the remaining chunks
reconstruct the input chunk list. -/
theorem takeFits_append (w : Int) :
    ∀ (chunks : List Str) (accRev : List Str) (n : Nat),
      (takeFitsGo w accRev n chunks).1 ++ (takeFitsGo w accRev n chunks).2 =
        accRev.reverse ++ chunks := by
  intro chunks
  induction chunks with
  | nil => intro accRev n; simp [takeFitsGo]
  | cons ch rest ih =>
    intro accRev n
    unfold takeFitsGo
    by_cases h : (n + ch.length : Int) ≤ w
    · simp only [h, if_true]
      rw [ih (ch :: accRev) (n + ch.length)]
      simp
    · simp [h]

/-- The current line never exceeds the local width. -/
theorem takeFits_lensum (w : Int) :
    ∀ (chunks : List Str) (accRev : List Str) (n : Nat),
      n = lensum accRev.reverse → (n : Int) ≤ w →
      (lensum (takeFitsGo w accRev n chunks).1 : Int) ≤ w := by
  intro chunks
  induction chunks with
  | nil =>
    intro accRev n hn hle
    simp only [takeFitsGo]
    rw [← hn]
    exact hle
  | cons ch rest ih =>
    intro accRev n hn hle
    unfold takeFitsGo
    by_cases h : (n + ch.length : Int) ≤ w
    · simp only [h, if_true]
      refine ih (ch :: accRev) (n + ch.length) ?_ h
      rw [hn]
      simp [lensum_append, lensum]
    · simp only [h, if_false, Bool.false_eq_true]
      rw [← hn]
      exact hle

theorem rfindHyphenGo_lt :
    ∀ (s : Str) (i : Nat) (acc : Option Nat) (h : Nat),
      (∀ a, acc = some a → a < i) → rfindHyphenGo s i acc = some h →
      h < i + s.length := by
  intro s
  induction s with
  | nil =>
    intro i acc h hacc heq
    simpa using hacc h heq
  | cons c r ih =>
    intro i acc h hacc heq
    unfold rfindHyphenGo at heq
    have hstep : ∀ a, (if c = '-' then some i else acc) = some a → a < i + 1 := by
      intro a ha
      by_cases hc : c = '-'
      · rw [if_pos hc] at ha
        injection ha with ha
        omega
      · rw [if_neg hc] at ha
        have := hacc a ha
        omega
    have := ih (i + 1) _ h hstep heq
    simp only [List.length_cons]
    omega

/-- `rfindHyphen` returns an index inside the string. -/
theorem rfindHyphen_lt {s : Str} {h : Nat} (hf : rfindHyphen s = some h) :
    h < s.length := by
  have := rfindHyphenGo_lt s 0 none h (by intro a ha; simp at ha) hf
  simpa using this

theorem wordBreakGo_ge (pre rest : Str) :
    ∀ (fuel n : Nat), n ≤ wordBreakGo pre rest fuel n := by
  intro fuel
  induction fuel with
  | zero => intro n; simp [wordBreakGo]
  | succ f ih =>
    intro n
    unfold wordBreakGo
    by_cases h1 : hyphenBreakAt pre rest n
    · simp [h1]
    · simp only [h1, Bool.false_eq_true, if_false]
      by_cases h2 : wordEndAt pre rest n
      · simp [h2]
      · simp only [h2, Bool.false_eq_true, if_false]
        by_cases h3 : emDashAheadAt pre rest n
        · simp [h3]
        · simp only [h3, Bool.false_eq_true, if_false]
          exact le_trans (by omega) (ih (n + 1))

theorem wordBreakLen_pos (pre rest : Str) : 1 ≤ wordBreakLen pre rest :=
  wordBreakGo_ge pre rest rest.length 1

/-- The word-splitter chunks tile the input text. -/
theorem wordsepGo_flatten :
    ∀ (fuel : Nat) (pre rest : Str), rest.length ≤ fuel →
      (wordsepGo fuel pre rest).flatten = rest := by
  intro fuel
  induction fuel with
  | zero =>
    intro pre rest h
    have : rest = [] := List.length_eq_zero.1 (by omega)
    subst this
    simp [wordsepGo]
  | succ f ih =>
    intro pre rest h
    unfold wordsepGo
    cases rest with
    | nil => rfl
    | cons c cs =>
      by_cases hws : isPySpace c
      · simp only [hws, if_true, List.flatten_cons]
        have hrun : (c :: cs).takeWhile isPySpace <+: (c :: cs) := List.takeWhile_prefix _
        have hlen : 1 ≤ ((c :: cs).takeWhile isPySpace).length := by
          rw [List.takeWhile_cons, if_pos hws]
          simp
        rw [ih _ _ (by
          have := hrun.length_le
          simp only [List.length_drop]
          simp at h this ⊢
          omega)]
        exact prefix_append_drop hrun
      · simp only [hws, Bool.false_eq_true, if_false]
        by_cases hem : optIs isWordPunct pre.head? &&
            decide (((c :: cs).takeWhile (fun d => d = '-')).length ≥ 2) &&
            optIs isWordChar ((c :: cs).get? ((c :: cs).takeWhile (fun d => d = '-')).length)
        · simp only [hem, if_true, List.flatten_cons]
          have hrun : (c :: cs).takeWhile (fun d => d = '-') <+: (c :: cs) :=
            List.takeWhile_prefix _
          have hlen : 2 ≤ ((c :: cs).takeWhile (fun d => d = '-')).length := by
            simp only [Bool.and_eq_true, decide_eq_true_eq] at hem
            exact hem.1.2
          rw [ih _ _ (by
            have := hrun.length_le
            simp only [List.length_drop]
            simp at h this ⊢
            omega)]
          exact prefix_append_drop hrun
        · simp only [hem, Bool.false_eq_true, if_false, List.flatten_cons]
          have hn1 : 1 ≤ wordBreakLen pre (c :: cs) := wordBreakLen_pos pre (c :: cs)
          rw [ih _ _ (by
            simp only [List.length_drop]
            simp at h ⊢
            omega)]
          exact List.take_append_drop _ _

/-- The word-splitter never produces an empty chunk. -/
theorem wordsepGo_ne_nil :
    ∀ (fuel : Nat) (pre rest : Str), rest.length ≤ fuel →
      ∀ ch ∈ wordsepGo fuel pre rest, ch ≠ [] := by
  intro fuel
  induction fuel with
  | zero =>
    intro pre rest h
    have : rest = [] := List.length_eq_zero.1 (by omega)
    subst this
    simp [wordsepGo]
  | succ f ih =>
    intro pre rest h ch hch
    unfold wordsepGo at hch
    cases rest with
    | nil => simp at hch
    | cons c cs =>
      by_cases hws : isPySpace c
      · simp only [hws, if_true, List.mem_cons] at hch
        rcases hch with rfl | hch
        · rw [List.takeWhile_cons, if_pos hws]
          simp
        · have hrun : (c :: cs).takeWhile isPySpace <+: (c :: cs) := List.takeWhile_prefix _
          have hlen : 1 ≤ ((c :: cs).takeWhile isPySpace).length := by
            rw [List.takeWhile_cons, if_pos hws]; simp
          refine ih _ _ (by
            have := hrun.length_le
            simp only [List.length_drop]
            simp at h this ⊢
            omega) ch hch
      · simp only [hws, Bool.false_eq_true, if_false] at hch
        by_cases hem : optIs isWordPunct pre.head? &&
            decide (((c :: cs).takeWhile (fun d => d = '-')).length ≥ 2) &&
            optIs isWordChar ((c :: cs).get? ((c :: cs).takeWhile (fun d => d = '-')).length)
        · simp only [hem, if_true, List.mem_cons] at hch
          rcases hch with rfl | hch
          · intro h0
            simp only [Bool.and_eq_true, decide_eq_true_eq] at hem
            rw [h0] at hem
            simpa using hem.1.2
          · have hrun : (c :: cs).takeWhile (fun d => d = '-') <+: (c :: cs) :=
              List.takeWhile_prefix _
            have hlen : 2 ≤ ((c :: cs).takeWhile (fun d => d = '-')).length := by
              simp only [Bool.and_eq_true, decide_eq_true_eq] at hem
              exact hem.1.2
            refine ih _ _ (by
              have := hrun.length_le
              simp only [List.length_drop]
              simp at h this ⊢
              omega) ch hch
        · simp only [hem, Bool.false_eq_true, if_false, List.mem_cons] at hch
          rcases hch with rfl | hch
          · have hn1 : 1 ≤ wordBreakLen pre (c :: cs) := wordBreakLen_pos pre (c :: cs)
            intro h0
            have := congrArg List.length h0
            simp at this
            omega
          · have hn1 : 1 ≤ wordBreakLen pre (c :: cs) := wordBreakLen_pos pre (c :: cs)
            refine ih _ _ (by
              simp only [List.length_drop]
              simp at h ⊢
              omega) ch hch

theorem wordsepSplit_flatten (s : Str) : (wordsepSplit s).flatten = s :=
  wordsepGo_flatten s.length [] s (le_refl _)

theorem wordsepSplit_ne_nil (s : Str) : ∀ ch ∈ wordsepSplit s, ch ≠ [] :=
  wordsepGo_ne_nil s.length [] s (le_refl _)

/-- The simple splitter chunks tile the input text. -/
theorem simpleSplitGo_flatten :
    ∀ (fuel : Nat) (rest : Str), rest.length ≤ fuel →
      (simpleSplitGo fuel rest).flatten = rest := by
  intro fuel
  induction fuel with
  | zero =>
    intro rest h
    have : rest = [] := List.length_eq_zero.1 (by omega)
    subst this
    simp [simpleSplitGo]
  | succ f ih =>
    intro rest h
    unfold simpleSplitGo
    cases rest with
    | nil => rfl
    | cons c cs =>
      simp only [List.flatten_cons]
      have hrun : (c :: cs).takeWhile (fun d => isPySpace d = isPySpace c) <+: (c :: cs) :=
        List.takeWhile_prefix _
      have hlen : 1 ≤ ((c :: cs).takeWhile (fun d => isPySpace d = isPySpace c)).length := by
        rw [List.takeWhile_cons, if_pos (by simp)]
        simp
      rw [ih _ (by
        have := hrun.length_le
        simp only [List.length_drop]
        simp at h this ⊢
        omega)]
      exact prefix_append_drop hrun

/-- The simple splitter never produces an empty chunk. -/
theorem simpleSplitGo_ne_nil :
    ∀ (fuel : Nat) (rest : Str), rest.length ≤ fuel →
      ∀ ch ∈ simpleSplitGo fuel rest, ch ≠ [] := by
  intro fuel
  induction fuel with
  | zero =>
    intro rest h
    have : rest = [] := List.length_eq_zero.1 (by omega)
    subst this
    simp [simpleSplitGo]
  | succ f ih =>
    intro rest h ch hch
    unfold simpleSplitGo at hch
    cases rest with
    | nil => simp at hch
    | cons c cs =>
      simp only [List.mem_cons] at hch
      have hlen : 1 ≤ ((c :: cs).takeWhile (fun d => isPySpace d = isPySpace c)).length := by
        rw [List.takeWhile_cons, if_pos (by simp)]
        simp
      rcases hch with rfl | hch
      · intro h0
        rw [h0] at hlen
        simp at hlen
      · have hrun : (c :: cs).takeWhile (fun d => isPySpace d = isPySpace c) <+: (c :: cs) :=
          List.takeWhile_prefix _
        refine ih _ (by
          have := hrun.length_le
          simp only [List.length_drop]
          simp at h this ⊢
          omega) ch hch

/-- Any chunk produced by `_split` is non-empty and its characters come from
the input. -/
theorem twSplit_sound (cfg : WrapCfg) (s : Str) :
    ∀ ch ∈ twSplit cfg s, ch ≠ [] ∧ ∀ c ∈ ch, c ∈ s := by
  intro ch hch
  unfold twSplit at hch
  by_cases hboh : cfg.breakOnHyphens
  · rw [if_pos hboh] at hch
    refine ⟨wordsepSplit_ne_nil s ch hch, ?_⟩
    intro c hc
    rw [← wordsepSplit_flatten s]
    exact List.mem_flatten.2 ⟨ch, hch, hc⟩
  · rw [if_neg hboh] at hch
    refine ⟨simpleSplitGo_ne_nil s.length s (le_refl _) ch hch, ?_⟩
    intro c hc
    have : (simpleSplit s).flatten = s := simpleSplitGo_flatten s.length s (le_refl _)
    rw [← this]
    exact List.mem_flatten.2 ⟨ch, hch, hc⟩

/-- Munged text contains no newline when whitespace replacement is on. -/
theorem mungeWhitespace_no_newline (cfg : WrapCfg) (hrw : cfg.replaceWhitespace = true)
    (text : Str) : ∀ c ∈ mungeWhitespace cfg text, c ≠ '\n' := by
  intro c hc
  unfold mungeWhitespace at hc
  rw [hrw] at hc
  simp only [if_true] at hc
  obtain ⟨d, _, rfl⟩ := List.mem_map.1 hc
  unfold wsToSpace
  by_cases hd : isPySpace d
  · simp [hd]
  · rw [if_neg hd]
    intro h0
    subst h0
    simp [isPySpace] at hd

theorem lensum_prefix {p l : List Str} (h : p <+: l) : lensum p ≤ lensum l := by
  obtain ⟨t, rfl⟩ := h
  rw [lensum_append]
  omega

/-- Case analysis of the trailing-whitespace drop: the current line is
empty, or its last chunk is all-whitespace and gets dropped, or its last
chunk has visible content and the line is kept. -/
theorem dropTrailingWs_cases (cfg : WrapCfg) (hDW : cfg.dropWhitespace = true)
    (curLine : List Str) :
    (curLine = [] ∧ dropTrailingWs cfg curLine = []) ∨
    (∃ last, curLine.getLast? = some last ∧ (pyStrip last).isEmpty = true ∧
      dropTrailingWs cfg curLine = curLine.dropLast) ∨
    (∃ last, curLine.getLast? = some last ∧ (pyStrip last).isEmpty = false ∧
      dropTrailingWs cfg curLine = curLine) := by
  unfold dropTrailingWs
  split
  · split
    · rename_i last hlast
      split
      · rename_i hblank
        exact Or.inr (Or.inl ⟨last, hlast, hblank, rfl⟩)
      · rename_i hblank
        refine Or.inr (Or.inr ⟨last, hlast, ?_, rfl⟩)
        cases h : (pyStrip last).isEmpty
        · rfl
        · exact absurd h hblank
    · rename_i hnone
      have hcl : curLine = [] := by
        cases curLine with
        | nil => rfl
        | cons a as => simp [List.getLast?_eq_none_iff] at hnone
      exact Or.inl ⟨hcl, hcl⟩
  · rename_i h
    exact absurd hDW h

/-- The trailing-whitespace drop keeps a subset of the line's chunks, never
lengthens the line, and (when every non-final chunk is non-empty) leaves a
non-empty chunk in any non-empty result. -/
theorem dropTrailingWs_shape (cfg : WrapCfg) (hDW : cfg.dropWhitespace = true)
    (curLine : List Str) (hb : ∀ x ∈ curLine.dropLast, x ≠ []) :
    (∀ x ∈ dropTrailingWs cfg curLine, x ∈ curLine) ∧
    lensum (dropTrailingWs cfg curLine) ≤ lensum curLine ∧
    (dropTrailingWs cfg curLine ≠ [] → ∃ x ∈ dropTrailingWs cfg curLine, x ≠ []) := by
  rcases dropTrailingWs_cases cfg hDW curLine with ⟨h0, he⟩ | ⟨last, hlast, hbl, he⟩ |
    ⟨last, hlast, hbl, he⟩
  · rw [he]
    exact ⟨fun x hx => absurd hx (List.not_mem_nil x), by simp [lensum],
      fun h => absurd rfl h⟩
  · rw [he]
    refine ⟨fun x hx => (List.dropLast_prefix curLine).subset hx,
      lensum_prefix (List.dropLast_prefix curLine), ?_⟩
    intro h
    obtain ⟨x, hx⟩ := List.exists_mem_of_ne_nil _ h
    exact ⟨x, hx, hb x hx⟩
  · rw [he]
    refine ⟨fun x hx => hx, le_refl _, ?_⟩
    intro h
    have hmem : last ∈ curLine := List.mem_of_mem_getLast? hlast
    refine ⟨last, hmem, ?_⟩
    intro h0
    rw [h0] at hbl
    exact absurd hbl (by decide)

/-- Emitting the filled line: the iteration continues, and at most one new
line is pushed — a non-empty line made of characters from the line's chunks
whose length is bounded by the line's chunk lengths. -/
theorem wrapEmit_shape (cfg : WrapCfg) (hDW : cfg.dropWhitespace = true)
    (P : Str → Prop) (curLine0 ks linesRev : List Str)
    (ha : ∀ x ∈ curLine0, ∀ c ∈ x, ∃ y, P y ∧ c ∈ y)
    (hb : ∀ x ∈ curLine0.dropLast, x ≠ [])
    (hlen : (lensum curLine0 : Int) ≤ cfg.width) :
    ∃ linesRev2,
      (if (dropTrailingWs cfg curLine0).isEmpty then IterOut.cont ks linesRev
       else IterOut.cont ks ((dropTrailingWs cfg curLine0).flatten :: linesRev)) =
        IterOut.cont ks linesRev2 ∧
      (linesRev2 = linesRev ∨ ∃ nl,
        linesRev2 = nl :: linesRev ∧ nl ≠ [] ∧
        (∀ c ∈ nl, ∃ y, P y ∧ c ∈ y) ∧
        (nl.length : Int) ≤ cfg.width) := by
  obtain ⟨hmem, hlen2, hne⟩ := dropTrailingWs_shape cfg hDW curLine0 hb
  by_cases hE : (dropTrailingWs cfg curLine0).isEmpty = true
  · exact ⟨linesRev, by rw [if_pos hE], Or.inl rfl⟩
  · refine ⟨(dropTrailingWs cfg curLine0).flatten :: linesRev, by rw [if_neg hE],
      Or.inr ⟨(dropTrailingWs cfg curLine0).flatten, rfl, ?_, ?_, ?_⟩⟩
    · have hne2 : dropTrailingWs cfg curLine0 ≠ [] := by
        intro h0
        rw [h0] at hE
        exact hE rfl
      obtain ⟨x, hx, hxne⟩ := hne hne2
      intro h0
      rw [List.flatten_eq_nil_iff] at h0
      exact hxne (h0 x hx)
    · intro c hc
      obtain ⟨x, hx, hcx⟩ := List.mem_flatten.1 hc
      exact ha x (hmem x hx) c hcx
    · rw [lensum_flatten]
      have h2 : (lensum (dropTrailingWs cfg curLine0) : Int) ≤ (lensum curLine0 : Int) := by
        exact_mod_cast hlen2
      exact le_trans h2 hlen

/-- `_handle_long_word` with breaking enabled and a positive local width:
the head chunk is cut after `e` characters, `e` fitting in the space left
on the current line and positive when the line is empty. -/
theorem handleLongWord_break (cfg : WrapCfg) (widthL : Int) (curLine : List Str)
    (chunk : Str) (rest : List Str)
    (hblw : cfg.breakLongWords = true) (hW : 1 ≤ widthL)
    (hcl : (lensum curLine : Int) ≤ widthL) :
    ∃ e : Nat, (e : Int) ≤ widthL - lensum curLine ∧ (curLine = [] → 1 ≤ e) ∧
      handleLongWord cfg widthL curLine (chunk :: rest) =
        (curLine ++ [chunk.take e], chunk.drop e :: rest) := by
  have hnlt : ¬ widthL < 1 := by omega
  have hsl : (0 : Int) ≤ widthL - lensum curLine := by
    have : (0 : Int) ≤ (lensum curLine : Int) := by positivity
    omega
  unfold handleLongWord
  simp only [hnlt, if_false, hblw, if_true]
  by_cases hg : (cfg.breakOnHyphens && decide ((chunk.length : Int) > widthL - lensum curLine)) = true
  · rw [if_pos hg]
    cases hrf : rfindHyphen (chunk.take (widthL - lensum curLine).toNat) with
    | none =>
      simp only [hrf]
      refine ⟨_, ?_, ?_, rfl⟩
      · rw [Int.toNat_of_nonneg hsl]
      · intro h0
        subst h0
        simp only [lensum, List.map_nil, List.sum_nil, Nat.cast_zero, sub_zero] at *
        omega
    | some h =>
      simp only [hrf]
      by_cases hin : (h > 0 && (chunk.take h).any (fun c => c ≠ '-')) = true
      · rw [if_pos hin]
        refine ⟨_, ?_, ?_, rfl⟩
        · have hh := rfindHyphen_lt hrf
          have h2 : (chunk.take (widthL - lensum curLine).toNat).length ≤
              (widthL - lensum curLine).toNat := List.length_take_le _ _
          have h3 : ((widthL - lensum curLine).toNat : Int) = widthL - lensum curLine :=
            Int.toNat_of_nonneg hsl
          omega
        · intro _
          omega
      · rw [if_neg hin]
        refine ⟨_, ?_, ?_, rfl⟩
        · rw [Int.toNat_of_nonneg hsl]
        · intro h0
          subst h0
          simp only [lensum, List.map_nil, List.sum_nil, Nat.cast_zero, sub_zero] at *
          omega
  · rw [if_neg hg]
    refine ⟨_, ?_, ?_, rfl⟩
    · rw [Int.toNat_of_nonneg hsl]
    · intro h0
      subst h0
      simp only [lensum, List.map_nil, List.sum_nil, Nat.cast_zero, sub_zero] at *
      omega

/-- `_handle_long_word` with breaking disabled: pop the whole chunk onto an
empty line, otherwise leave everything for the next line. -/
theorem handleLongWord_nobreak (cfg : WrapCfg) (widthL : Int) (curLine : List Str)
    (chunk : Str) (rest : List Str) (hblw : cfg.breakLongWords = false) :
    handleLongWord cfg widthL curLine (chunk :: rest) =
      if curLine.isEmpty then ([chunk], rest) else (curLine, chunk :: rest) := by
  unfold handleLongWord
  simp only [hblw, Bool.false_eq_true, if_false]
/-- Packaging an iteration outcome: given the value of `wrapFill2` and the
facts about its two components, `wrapStep` continues with the remaining
chunks and pushes at most one good line. -/
theorem wrapStep_emit (cfg : WrapCfg) (hDW : cfg.dropWhitespace = true)
    (P : Str → Prop) (chunks1 linesRev curLine0 ks : List Str)
    (hwf : wrapFill2 cfg cfg.width chunks1 = (curLine0, ks))
    (ha : ∀ x ∈ curLine0, ∀ c ∈ x, ∃ y, P y ∧ c ∈ y)
    (hb : ∀ x ∈ curLine0.dropLast, x ≠ [])
    (hlen : (lensum curLine0 : Int) ≤ cfg.width)
    (hks : ∀ x ∈ ks, P x)
    (hksf : cfg.breakLongWords = false → ∀ x ∈ ks, x ∈ chunks1) :
    ∃ chunks2 linesRev2,
      wrapStep cfg linesRev chunks1 = .cont chunks2 linesRev2 ∧
      (∀ x ∈ chunks2, P x) ∧
      (cfg.breakLongWords = false → ∀ x ∈ chunks2, x ∈ chunks1) ∧
      (linesRev2 = linesRev ∨ ∃ nl,
        linesRev2 = nl :: linesRev ∧ nl ≠ [] ∧
        (∀ c ∈ nl, ∃ y, P y ∧ c ∈ y) ∧
        ((nl.length : Int) ≤ cfg.width ∨
          (cfg.breakLongWords = false ∧ (cfg.width : Int) < nl.length ∧ nl ∈ chunks1))) := by
  obtain ⟨lr2, hEq, hLR⟩ := wrapEmit_shape cfg hDW P curLine0 ks linesRev ha hb hlen
  refine ⟨ks, lr2, ?_, hks, hksf, ?_⟩
  · unfold wrapStep
    rw [hwf]
    exact hEq
  · rcases hLR with h | ⟨nl, h1, h2, h3, h4⟩
    · exact Or.inl h
    · exact Or.inr ⟨nl, h1, h2, h3, Or.inl h4⟩

/-- Shape of one `wrapStep`: the new chunk list still satisfies the chunk
invariant `P` (with `break_long_words=False` it is a subset of the input
chunks), and at most one line is emitted — non-empty, drawn from the
chunks' characters, and within the width unless breaking is disabled and
the line is a single over-long chunk. -/
theorem wrapStep_shape (cfg : WrapCfg) (hW : 1 ≤ cfg.width)
    (hDW : cfg.dropWhitespace = true)
    (P : Str → Prop)
    (hPne : ∀ x, P x → x ≠ [])
    (hPdrop : ∀ x, P x → ∀ k, k < x.length → P (x.drop k))
    (chunks1 linesRev : List Str)
    (hsub1 : ∀ x ∈ chunks1, P x) :
    ∃ chunks2 linesRev2,
      wrapStep cfg linesRev chunks1 = .cont chunks2 linesRev2 ∧
      (∀ x ∈ chunks2, P x) ∧
      (cfg.breakLongWords = false → ∀ x ∈ chunks2, x ∈ chunks1) ∧
      (linesRev2 = linesRev ∨ ∃ nl,
        linesRev2 = nl :: linesRev ∧ nl ≠ [] ∧
        (∀ c ∈ nl, ∃ y, P y ∧ c ∈ y) ∧
        ((nl.length : Int) ≤ cfg.width ∨
          (cfg.breakLongWords = false ∧ (cfg.width : Int) < nl.length ∧ nl ∈ chunks1))) := by
  cases htf : takeFitsGo cfg.width [] 0 chunks1 with
  | mk taken rest =>
  have happ : taken ++ rest = chunks1 := by
    have h0 := takeFits_append cfg.width chunks1 [] 0
    rw [htf] at h0
    simpa using h0
  have htlen : (lensum taken : Int) ≤ cfg.width := by
    have h0 := takeFits_lensum cfg.width chunks1 [] 0 (by simp [lensum]) (by omega)
    rw [htf] at h0
    exact h0
  have htmem : ∀ x ∈ taken, x ∈ chunks1 := fun x hx =>
    happ ▸ List.mem_append_left rest hx
  have hrmem : ∀ x ∈ rest, x ∈ chunks1 := fun x hx =>
    happ ▸ List.mem_append_right taken hx
  have htP : ∀ x ∈ taken, P x := fun x hx => hsub1 x (htmem x hx)
  have hrP : ∀ x ∈ rest, P x := fun x hx => hsub1 x (hrmem x hx)
  have hta : ∀ x ∈ taken, ∀ c ∈ x, ∃ y, P y ∧ c ∈ y := fun x hx c hc =>
    ⟨x, htP x hx, hc⟩
  have htne : ∀ x ∈ taken, x ≠ [] := fun x hx => hPne x (htP x hx)
  have htb : ∀ x ∈ taken.dropLast, x ≠ [] := fun x hx =>
    htne x ((List.dropLast_prefix taken).subset hx)
  cases rest with
  | nil =>
    have hwf : wrapFill2 cfg cfg.width chunks1 = (taken, []) := by
      simp only [wrapFill2, htf]
    exact wrapStep_emit cfg hDW P chunks1 linesRev taken [] hwf hta htb htlen
      (fun x hx => absurd hx (List.not_mem_nil x))
      (fun _ x hx => absurd hx (List.not_mem_nil x))
  | cons ch r2 =>
    have hchP : P ch := hrP ch (List.mem_cons_self ch r2)
    have hchne : ch ≠ [] := hPne ch hchP
    have hchmem : ch ∈ chunks1 := hrmem ch (List.mem_cons_self ch r2)
    by_cases hlong : (ch.length : Int) > cfg.width
    · by_cases hblw : cfg.breakLongWords = true
      · obtain ⟨e, he1, he2, heq⟩ :=
          handleLongWord_break cfg cfg.width taken ch r2 hblw hW htlen
        have hwf : wrapFill2 cfg cfg.width chunks1 =
            (taken ++ [ch.take e], ch.drop e :: r2) := by
          simp only [wrapFill2, htf]
          rw [if_pos hlong, heq]
        have hlNN : (0 : Int) ≤ (lensum taken : Int) := by positivity
        have heltN : e < ch.length := by
          have : (e : Int) < (ch.length : Int) := by omega
          exact_mod_cast this
        refine wrapStep_emit cfg hDW P chunks1 linesRev (taken ++ [ch.take e])
          (ch.drop e :: r2) hwf ?_ ?_ ?_ ?_ ?_
        · intro x hx c hc
          rcases List.mem_append.1 hx with hx1 | hx2
          · exact hta x hx1 c hc
          · have hxe : x = ch.take e := by simpa using hx2
            subst hxe
            exact ⟨ch, hchP, List.take_subset e ch hc⟩
        · intro x hx
          have hdl : (taken ++ [ch.take e]).dropLast = taken := by simp
          rw [hdl] at hx
          exact htne x hx
        · rw [lensum_append]
          have h1 : lensum [ch.take e] = (ch.take e).length := by simp [lensum]
          have h2 : (ch.take e).length ≤ e := List.length_take_le e ch
          rw [h1]
          push_cast
          omega
        · intro x hx
          rcases List.mem_cons.1 hx with rfl | hx2
          · exact hPdrop ch hchP e heltN
          · exact hrP x (List.mem_cons_of_mem ch hx2)
        · intro hf
          rw [hblw] at hf
          exact absurd hf (by decide)
      · have hblw2 : cfg.breakLongWords = false := by
          cases h : cfg.breakLongWords
          · rfl
          · exact absurd h hblw
        have hhlw : handleLongWord cfg cfg.width taken (ch :: r2) =
            if taken.isEmpty then ([ch], r2) else (taken, ch :: r2) :=
          handleLongWord_nobreak cfg cfg.width taken ch r2 hblw2
        by_cases htk : taken = []
        · subst htk
          have hwf : wrapFill2 cfg cfg.width chunks1 = ([ch], r2) := by
            simp only [wrapFill2, htf]
            rw [if_pos hlong, hhlw]
            rfl
          rcases dropTrailingWs_cases cfg hDW [ch] with ⟨h0, _⟩ |
            ⟨last, hlast, hbl, he⟩ | ⟨last, hlast, hbl, he⟩
          · exact absurd h0 (by simp)
          · have hlc : last = ch := by simpa using hlast.symm
            subst hlc
            refine ⟨r2, linesRev, ?_,
              (fun x hx => hrP x (List.mem_cons_of_mem last hx)),
              (fun _ x hx => hrmem x (List.mem_cons_of_mem last hx)), Or.inl rfl⟩
            unfold wrapStep
            rw [hwf]
            have hd : dropTrailingWs cfg [last] = [] := by
              rw [he]
              simp
            simp [hd]
          · have hlc : last = ch := by simpa using hlast.symm
            subst hlc
            refine ⟨r2, last :: linesRev, ?_,
              (fun x hx => hrP x (List.mem_cons_of_mem last hx)),
              (fun _ x hx => hrmem x (List.mem_cons_of_mem last hx)),
              Or.inr ⟨last, rfl, hchne, (fun c hc => ⟨last, hchP, hc⟩),
                Or.inr ⟨hblw2, hlong, hchmem⟩⟩⟩
            unfold wrapStep
            rw [hwf]
            simp [he, hchne]
        · have hwf : wrapFill2 cfg cfg.width chunks1 = (taken, ch :: r2) := by
            simp only [wrapFill2, htf]
            rw [if_pos hlong, hhlw, if_neg (by simpa using htk)]
          exact wrapStep_emit cfg hDW P chunks1 linesRev taken (ch :: r2) hwf hta htb
            htlen hrP (fun _ x hx => hrmem x hx)
    · have hwf : wrapFill2 cfg cfg.width chunks1 = (taken, ch :: r2) := by
        simp only [wrapFill2, htf]
        rw [if_neg hlong]
      exact wrapStep_emit cfg hDW P chunks1 linesRev taken (ch :: r2) hwf hta htb
        htlen hrP (fun _ x hx => hrmem x hx)
/-- With empty indents and no `max_lines`, one iteration of the outer loop
is exactly the leading whitespace-chunk drop followed by `wrapStep`. -/
theorem wrapIter_eq_step (cfg : WrapCfg)
    (hI1 : cfg.initialIndent = []) (hI2 : cfg.subsequentIndent = [])
    (hML : cfg.maxLines = none) (linesRev chunks : List Str) :
    wrapIter cfg linesRev chunks =
      wrapStep cfg linesRev
        (if cfg.dropWhitespace && headBlank chunks && !linesRev.isEmpty then
          chunks.tail else chunks) := by
  have hind : (if linesRev = [] then cfg.initialIndent else cfg.subsequentIndent) = [] := by
    by_cases h : linesRev = [] <;> simp [h, hI1, hI2]
  unfold wrapIter wrapStep
  simp [hind, hML]
/-- Shape of one full `wrapIter` without `max_lines`: the loop continues,
the chunk invariant `P` is preserved (with `break_long_words=False` the new
chunks are a subset of the old), and at most one line is emitted — a
non-empty line of chunk characters within the width unless breaking is
disabled and the line is a single over-long chunk. -/
theorem wrapIter_shape (cfg : WrapCfg)
    (hI1 : cfg.initialIndent = []) (hI2 : cfg.subsequentIndent = [])
    (hW : 1 ≤ cfg.width) (hML : cfg.maxLines = none)
    (hDW : cfg.dropWhitespace = true)
    (P : Str → Prop)
    (hPne : ∀ x, P x → x ≠ [])
    (hPdrop : ∀ x, P x → ∀ k, k < x.length → P (x.drop k))
    (linesRev chunks : List Str)
    (hsub : ∀ x ∈ chunks, P x) :
    ∃ chunks2 linesRev2,
      wrapIter cfg linesRev chunks = .cont chunks2 linesRev2 ∧
      (∀ x ∈ chunks2, P x) ∧
      (cfg.breakLongWords = false → ∀ x ∈ chunks2, x ∈ chunks) ∧
      (linesRev2 = linesRev ∨ ∃ nl,
        linesRev2 = nl :: linesRev ∧ nl ≠ [] ∧
        (∀ c ∈ nl, ∃ y, P y ∧ c ∈ y) ∧
        ((nl.length : Int) ≤ cfg.width ∨
          (cfg.breakLongWords = false ∧ (cfg.width : Int) < nl.length ∧ nl ∈ chunks))) := by
  rw [wrapIter_eq_step cfg hI1 hI2 hML linesRev chunks]
  have hsub1 : ∀ x ∈ (if cfg.dropWhitespace && headBlank chunks && !linesRev.isEmpty then
      chunks.tail else chunks), x ∈ chunks := by
    intro x hx
    by_cases h : (cfg.dropWhitespace && headBlank chunks && !linesRev.isEmpty) = true
    · rw [if_pos h] at hx
      exact List.mem_of_mem_tail hx
    · rw [if_neg h] at hx
      exact hx
  obtain ⟨c2, l2, hEq, h1, h2, h3⟩ := wrapStep_shape cfg hW hDW P hPne hPdrop _ linesRev
    (fun x hx => hsub x (hsub1 x hx))
  refine ⟨c2, l2, hEq, h1, ?_, ?_⟩
  · intro hf x hx
    exact hsub1 x (h2 hf x hx)
  · rcases h3 with h | ⟨nl, ha1, ha2, ha3, ha4⟩
    · exact Or.inl h
    · refine Or.inr ⟨nl, ha1, ha2, ha3, ?_⟩
      rcases ha4 with h | ⟨hf, hlt, hmem⟩
      · exact Or.inl h
      · exact Or.inr ⟨hf, hlt, hsub1 nl hmem⟩

/-- Invariant of the whole wrap loop without `max_lines`: starting from
chunks satisfying `P` and good lines, every produced line is non-empty,
made of chunk characters, and within the width unless breaking is disabled
and the line is one of the original chunks. -/
theorem wrapLoop_good (cfg : WrapCfg)
    (hI1 : cfg.initialIndent = []) (hI2 : cfg.subsequentIndent = [])
    (hW : 1 ≤ cfg.width) (hML : cfg.maxLines = none)
    (hDW : cfg.dropWhitespace = true)
    (P : Str → Prop)
    (hPne : ∀ x, P x → x ≠ [])
    (hPdrop : ∀ x, P x → ∀ k, k < x.length → P (x.drop k))
    (chunksAll : List Str) :
    ∀ (fuel : Nat) (chunks linesRev : List Str),
      (∀ x ∈ chunks, P x) →
      (cfg.breakLongWords = false → ∀ x ∈ chunks, x ∈ chunksAll) →
      (∀ l ∈ linesRev, l ≠ [] ∧ (∀ c ∈ l, ∃ y, P y ∧ c ∈ y) ∧
        ((l.length : Int) ≤ cfg.width ∨
          (cfg.breakLongWords = false ∧ (cfg.width : Int) < l.length ∧ l ∈ chunksAll))) →
      ∀ l ∈ wrapLoop cfg fuel chunks linesRev,
        l ≠ [] ∧ (∀ c ∈ l, ∃ y, P y ∧ c ∈ y) ∧
        ((l.length : Int) ≤ cfg.width ∨
          (cfg.breakLongWords = false ∧ (cfg.width : Int) < l.length ∧ l ∈ chunksAll)) := by
  intro fuel
  induction fuel with
  | zero =>
    intro chunks linesRev _ _ hl l hl2
    have h0 : wrapLoop cfg 0 chunks linesRev = linesRev.reverse := rfl
    rw [h0] at hl2
    exact hl l (List.mem_reverse.1 hl2)
  | succ f ih =>
    intro chunks linesRev hc hcf hl l hl2
    cases chunks with
    | nil =>
      have h0 : wrapLoop cfg (f + 1) [] linesRev = linesRev.reverse := rfl
      rw [h0] at hl2
      exact hl l (List.mem_reverse.1 hl2)
    | cons c0 cs0 =>
      obtain ⟨chunks2, linesRev2, hEq, h1, h2, h3⟩ :=
        wrapIter_shape cfg hI1 hI2 hW hML hDW P hPne hPdrop linesRev (c0 :: cs0) hc
      have hstep : wrapLoop cfg (f + 1) (c0 :: cs0) linesRev =
          (match wrapIter cfg linesRev (c0 :: cs0) with
           | IterOut.cont a b => wrapLoop cfg f a b
           | IterOut.stop lr => lr.reverse) := rfl
      rw [hstep, hEq] at hl2
      refine ih chunks2 linesRev2 h1 ?_ ?_ l hl2
      · intro hf x hx
        exact hcf hf x (h2 hf x hx)
      · rcases h3 with rfl | ⟨nl, rfl, hn1, hn2, hn3⟩
        · exact hl
        · intro l2 hl3
          rcases List.mem_cons.1 hl3 with rfl | h
          · refine ⟨hn1, hn2, ?_⟩
            rcases hn3 with h | ⟨hf, hlt, hmem⟩
            · exact Or.inl h
            · exact Or.inr ⟨hf, hlt, hcf hf l2 hmem⟩
          · exact hl l2 h
/-- C1: for every text and configured width `W > 0` (a non-positive width
raises instead of returning), every line returned by
`TextFormatter.wrap` fits in `W` characters, except that with
`break_long_words=False` a line may be a single over-long chunk — an
unbreakable token longer than `W`. -/
theorem C1_wrap_line_width (W : Int) (blw : Bool) (text : Str) (ls : List Str)
    (hok : tfWrap (mkFormatter W blw) text = Except.ok ls) :
    ∀ l ∈ ls, (l.length : Int) ≤ W ∨
      (blw = false ∧ W < (l.length : Int) ∧
        l ∈ twSplit (mkFormatter W blw) (mungeWhitespace (mkFormatter W blw) text)) := by
  intro l hl
  unfold tfWrap at hok
  by_cases hempty : (pyStrip text).isEmpty = true
  · rw [if_pos hempty] at hok
    simp only [Except.ok.injEq] at hok
    rw [← hok] at hl
    exact absurd hl (List.not_mem_nil l)
  · rw [if_neg hempty] at hok
    have hfse : (mkFormatter W blw).fixSentenceEndings = false := rfl
    simp only [wrapperWrap, hfse, Bool.false_eq_true, if_false] at hok
    unfold wrapChunksE at hok
    by_cases hW0 : (mkFormatter W blw).width ≤ 0
    · rw [if_pos hW0] at hok
      simp at hok
    · rw [if_neg hW0] at hok
      have hml : (mkFormatter W blw).maxLines = none := rfl
      rw [hml] at hok
      simp only [Except.ok.injEq] at hok
      rw [← hok] at hl
      have hbound := wrapLoop_good (mkFormatter W blw) rfl rfl (by omega) rfl rfl
        (fun s => ∃ ch, ch ∈ twSplit (mkFormatter W blw)
          (mungeWhitespace (mkFormatter W blw) text) ∧ ∃ k, k < ch.length ∧ s = ch.drop k)
        (fun x hx => by
          obtain ⟨ch, hch, k, hk, rfl⟩ := hx
          intro h0
          have hlen := congrArg List.length h0
          simp only [List.length_drop, List.length_nil] at hlen
          omega)
        (fun x hx k2 hk2 => by
          obtain ⟨ch, hch, k, hk, rfl⟩ := hx
          rw [List.drop_drop]
          refine ⟨ch, hch, k + k2, ?_, rfl⟩
          rw [List.length_drop] at hk2
          omega)
        (twSplit (mkFormatter W blw) (mungeWhitespace (mkFormatter W blw) text))
        _ _ []
        (fun x hx => ⟨x, hx, 0, List.length_pos.2
          (twSplit_sound (mkFormatter W blw) _ x hx).1, (List.drop_zero x).symm⟩)
        (fun _ x hx => hx)
        (by simp)
        l hl
      exact hbound.2.2
theorem C1_witness :
    tfWrap (mkFormatter 5 true) ("Hello   world foo".toList) =
      Except.ok ["Hello".toList, "world".toList, "foo".toList] ∧
    ∀ l ∈ (["Hello".toList, "world".toList, "foo".toList] : List Str),
      (l.length : Int) ≤ 5 ∨
      (true = false ∧ (5 : Int) < (l.length : Int) ∧
        l ∈ twSplit (mkFormatter 5 true)
          (mungeWhitespace (mkFormatter 5 true) ("Hello   world foo".toList))) :=
  ⟨by decide, C1_wrap_line_width 5 true ("Hello   world foo".toList)
    ["Hello".toList, "world".toList, "foo".toList] (by decide)⟩
theorem lensum_reverse (l : List Str) : lensum l.reverse = lensum l := by
  simp only [lensum, List.map_reverse, List.sum_reverse]

/-- The `max_lines` truncation entered with no previously emitted line and
empty indent produces exactly one line that fits the width (the placeholder
fitting is the `_wrap_chunks` entry check). -/
theorem truncToFit_single (cfg : WrapCfg)
    (hpl : ((pyLStrip cfg.placeholder).length : Int) ≤ cfg.width) :
    ∀ revLine : List Str, ∃ l, truncToFit cfg [] cfg.width [] revLine = [l] ∧
      (l.length : Int) ≤ cfg.width := by
  intro revLine
  induction revLine with
  | nil =>
    refine ⟨pyLStrip cfg.placeholder, ?_, hpl⟩
    simp [truncToFit]
  | cons last revInit ih =>
    unfold truncToFit
    by_cases hc : (!(pyStrip last).isEmpty &&
        decide ((lensum (last :: revInit) + cfg.placeholder.length : Int) ≤ cfg.width)) = true
    · rw [if_pos hc]
      refine ⟨_, rfl, ?_⟩
      simp only [Bool.and_eq_true, decide_eq_true_eq] at hc
      have hfit := hc.2
      simp only [List.nil_append, List.length_append, lensum_flatten, lensum_reverse]
      push_cast
      push_cast at hfit
      omega
    · rw [if_neg hc]
      exact ih
/-- First iteration shape under `max_lines=1` and empty initial indent
(no line emitted yet): fill, then either continue silently, emit the single
allowed line when the remaining chunks are (almost) gone and it fits, or
enter the truncation. -/
theorem wrapIter_start (cfg : WrapCfg)
    (hI1 : cfg.initialIndent = []) (hML : cfg.maxLines = some 1)
    (chunks : List Str) :
    wrapIter cfg [] chunks =
      (if (dropTrailingWs cfg (wrapFill2 cfg cfg.width chunks).1).isEmpty then
        IterOut.cont (wrapFill2 cfg cfg.width chunks).2 []
      else if (((wrapFill2 cfg cfg.width chunks).2.isEmpty ||
            (cfg.dropWhitespace && (wrapFill2 cfg cfg.width chunks).2.length = 1 &&
              (pyStrip ((wrapFill2 cfg cfg.width chunks).2.headD [])).isEmpty)) &&
            decide ((lensum (dropTrailingWs cfg (wrapFill2 cfg cfg.width chunks).1) : Int) ≤
              cfg.width)) then
        IterOut.cont (wrapFill2 cfg cfg.width chunks).2
          [(dropTrailingWs cfg (wrapFill2 cfg cfg.width chunks).1).flatten]
      else IterOut.stop (truncToFit cfg [] cfg.width []
        (dropTrailingWs cfg (wrapFill2 cfg cfg.width chunks).1).reverse)) := by
  unfold wrapIter
  simp [hI1, hML, lensum_flatten]
/-- After the single allowed line has been emitted, a leftover all-blank
chunk is dropped and the iteration continues with nothing left. -/
theorem wrapIter_after (cfg : WrapCfg) (hDW : cfg.dropWhitespace = true)
    (l b : Str) (hb : (pyStrip b).isEmpty = true) :
    wrapIter cfg [l] [b] = .cont [] [l] := by
  unfold wrapIter
  simp [hDW, headBlank, hb, wrapFill2, takeFitsGo, dropTrailingWs]
/-- The wrap loop under `max_lines=1`, empty initial indent and a fitting
placeholder produces no line or exactly one line of at most `width`
characters. -/
theorem wrapLoop_shorten (cfg : WrapCfg)
    (hI1 : cfg.initialIndent = []) (hML : cfg.maxLines = some 1)
    (hDW : cfg.dropWhitespace = true)
    (hpl : ((pyLStrip cfg.placeholder).length : Int) ≤ cfg.width) :
    ∀ (fuel : Nat) (chunks linesRev : List Str),
      (linesRev = [] ∨ ∃ l, linesRev = [l] ∧ (l.length : Int) ≤ cfg.width ∧
        (chunks = [] ∨ ∃ b, chunks = [b] ∧ (pyStrip b).isEmpty = true)) →
      wrapLoop cfg fuel chunks linesRev = [] ∨
      ∃ l, wrapLoop cfg fuel chunks linesRev = [l] ∧ (l.length : Int) ≤ cfg.width := by
  intro fuel
  induction fuel with
  | zero =>
    intro chunks linesRev hinv
    rcases hinv with rfl | ⟨l, rfl, hle, _⟩
    · exact Or.inl rfl
    · exact Or.inr ⟨l, rfl, hle⟩
  | succ f ih =>
    intro chunks linesRev hinv
    cases chunks with
    | nil =>
      rcases hinv with rfl | ⟨l, rfl, hle, _⟩
      · exact Or.inl rfl
      · exact Or.inr ⟨l, rfl, hle⟩
    | cons c0 cs0 =>
      have hstep : ∀ res, wrapIter cfg linesRev (c0 :: cs0) = res →
          wrapLoop cfg (f + 1) (c0 :: cs0) linesRev =
            (match res with
             | IterOut.cont a b => wrapLoop cfg f a b
             | IterOut.stop lr => lr.reverse) := by
        intro res hres
        rw [← hres]
        rfl
      rcases hinv with rfl | ⟨l, rfl, hle, hch⟩
      · by_cases hE : (dropTrailingWs cfg (wrapFill2 cfg cfg.width (c0 :: cs0)).1).isEmpty = true
        · have hres : wrapIter cfg [] (c0 :: cs0) =
              .cont (wrapFill2 cfg cfg.width (c0 :: cs0)).2 [] := by
            rw [wrapIter_start cfg hI1 hML, if_pos hE]
          rw [hstep _ hres]
          exact ih _ _ (Or.inl rfl)
        · by_cases hOK : (((wrapFill2 cfg cfg.width (c0 :: cs0)).2.isEmpty ||
              (cfg.dropWhitespace && (wrapFill2 cfg cfg.width (c0 :: cs0)).2.length = 1 &&
                (pyStrip ((wrapFill2 cfg cfg.width (c0 :: cs0)).2.headD [])).isEmpty)) &&
              decide ((lensum (dropTrailingWs cfg (wrapFill2 cfg cfg.width (c0 :: cs0)).1) : Int) ≤
                cfg.width)) = true
          · have hres : wrapIter cfg [] (c0 :: cs0) =
                .cont (wrapFill2 cfg cfg.width (c0 :: cs0)).2
                  [(dropTrailingWs cfg (wrapFill2 cfg cfg.width (c0 :: cs0)).1).flatten] := by
              rw [wrapIter_start cfg hI1 hML, if_neg hE, if_pos hOK]
            rw [hstep _ hres]
            simp only [Bool.and_eq_true, Bool.or_eq_true, decide_eq_true_eq] at hOK
            refine ih _ _ (Or.inr ⟨_, rfl, ?_, ?_⟩)
            · rw [lensum_flatten]
              exact_mod_cast hOK.2
            · rcases hOK.1 with hks | ⟨⟨_, hlen1⟩, hblank⟩
              · exact Or.inl (by simpa using hks)
              · obtain ⟨b, hb⟩ := List.length_eq_one.1 (by exact_mod_cast hlen1)
                rw [hb] at hblank
                exact Or.inr ⟨b, hb, by simpa using hblank⟩
          · have hres : wrapIter cfg [] (c0 :: cs0) =
                .stop (truncToFit cfg [] cfg.width []
                  (dropTrailingWs cfg (wrapFill2 cfg cfg.width (c0 :: cs0)).1).reverse) := by
              rw [wrapIter_start cfg hI1 hML, if_neg hE, if_neg hOK]
            rw [hstep _ hres]
            obtain ⟨l, heq, hl2⟩ := truncToFit_single cfg hpl
              (dropTrailingWs cfg (wrapFill2 cfg cfg.width (c0 :: cs0)).1).reverse
            refine Or.inr ⟨l, ?_, hl2⟩
            show (truncToFit cfg [] cfg.width []
              (dropTrailingWs cfg (wrapFill2 cfg cfg.width (c0 :: cs0)).1).reverse).reverse = [l]
            rw [heq]
            rfl
      · rcases hch with h0 | ⟨b, hb1, hbk⟩
        · exact absurd h0 (by simp)
        · have hc0 : c0 = b := by
            injection hb1
          have hcs0 : cs0 = [] := by
            injection hb1 with h1 h2
          subst hc0
          subst hcs0
          have hres := wrapIter_after cfg hDW l c0 hbk
          rw [hstep _ hres]
          exact ih [] [l] (Or.inr ⟨l, rfl, hle, Or.inl rfl⟩)
/-- `_wrap_chunks` under `max_lines=1` with empty indents: success implies a
positive width and a result of at most one line, that line within the
width. -/
theorem wrapChunksE_ml1_len (cfg : WrapCfg)
    (hI1 : cfg.initialIndent = []) (hML : cfg.maxLines = some 1)
    (hDW : cfg.dropWhitespace = true)
    (chunks ls : List Str) (h : wrapChunksE cfg chunks = .ok ls) :
    1 ≤ cfg.width ∧
    (ls = [] ∨ ∃ l, ls = [l] ∧ (l.length : Int) ≤ cfg.width) := by
  unfold wrapChunksE at h
  by_cases hW0 : cfg.width ≤ 0
  · rw [if_pos hW0] at h
    simp at h
  · rw [if_neg hW0] at h
    rw [hML] at h
    simp only [gt_iff_lt, lt_self_iff_false, if_false, hI1, List.length_nil,
      Nat.cast_zero, zero_add] at h
    by_cases hple : ((pyLStrip cfg.placeholder).length : Int) > cfg.width
    · rw [if_pos hple] at h
      simp at h
    · rw [if_neg hple] at h
      simp only [Except.ok.injEq] at h
      refine ⟨by omega, ?_⟩
      rw [← h]
      exact wrapLoop_shorten cfg hI1 hML hDW (by omega) (wrapFuel chunks) chunks []
        (Or.inl rfl)
/-- C2: whenever `textwrap.shorten` returns (rather than raising on a
non-positive width or an over-long placeholder), the result — placeholder
included — is at most `width` characters long. -/
theorem C2_shorten_length (text : Str) (W : Int) (P : Str) (s : Str)
    (hok : twShorten text W P = .ok s) : (s.length : Int) ≤ W := by
  unfold twShorten wrapperFill at hok
  cases hww : wrapperWrap { width := W, maxLines := some 1, placeholder := P }
      (List.intercalate [' '] (pySplitWS (pyStrip text))) with
  | error e =>
    rw [hww] at hok
    simp [Except.map] at hok
  | ok ls =>
    rw [hww] at hok
    simp only [Except.map, Except.ok.injEq] at hok
    have hfse : ({ width := W, maxLines := some 1, placeholder := P } :
        WrapCfg).fixSentenceEndings = false := rfl
    simp only [wrapperWrap, hfse, Bool.false_eq_true, if_false] at hww
    obtain ⟨hW1, hdisj⟩ := wrapChunksE_ml1_len _ rfl rfl rfl _ _ hww
    rcases hdisj with rfl | ⟨l, rfl, hle⟩
    · rw [← hok]
      have h0 : List.intercalate ['\n'] ([] : List Str) = [] := rfl
      rw [h0]
      simp only [List.length_nil, Nat.cast_zero]
      have hWr : ({ width := W, maxLines := some 1, placeholder := P } :
          WrapCfg).width = W := rfl
      rw [hWr] at hW1
      omega
    · rw [← hok, intercalate_single]
      exact hle

theorem C2_witness :
    twShorten ("This is a very long sentence".toList) 10 ("...".toList) =
      Except.ok ("This is...".toList) ∧
    (("This is...".toList.length : Int) ≤ 10) :=
  ⟨by decide, C2_shorten_length ("This is a very long sentence".toList) 10
    ("...".toList) ("This is...".toList) (by decide)⟩
/-- Prepending newline-free characters cannot create a `"\n\n"` occurrence
that was not already in the suffix. -/
theorem hasNN_free_append :
    ∀ (l : Str), (∀ c ∈ l, c ≠ '\n') →
      ∀ t : Str, hasNN t = false → hasNN (l ++ t) = false := by
  intro l
  induction l with
  | nil =>
    intro _ t ht
    simpa using ht
  | cons a l2 ih =>
    intro hl t ht
    have ha : a ≠ '\n' := hl a (List.mem_cons_self a l2)
    cases hlt : l2 ++ t with
    | nil =>
      have hstep : hasNN (a :: l2 ++ t) = hasNN [a] := by
        rw [List.cons_append, hlt]
      rw [hstep]
      rfl
    | cons b r =>
      have hstep : hasNN (a :: l2 ++ t) = hasNN (a :: b :: r) := by
        rw [List.cons_append, hlt]
      rw [hstep]
      simp only [hasNN, Bool.or_eq_false_iff]
      constructor
      · simp [ha]
      · rw [← hlt]
        exact ih (fun c hc => hl c (List.mem_cons_of_mem a hc)) t ht
/-- Joining non-empty newline-free lines with single newlines yields a
string with no `"\n\n"` occurrence, not ending (or starting) in a newline,
and non-empty when there are lines. -/
theorem intercalate_nl_good :
    ∀ (lines : List Str), (∀ l ∈ lines, l ≠ [] ∧ ∀ c ∈ l, c ≠ '\n') →
      (lines ≠ [] → List.intercalate ['\n'] lines ≠ []) ∧
      hasNN (List.intercalate ['\n'] lines) = false ∧
      (List.intercalate ['\n'] lines).getLast? ≠ some '\n' ∧
      (∀ c, (List.intercalate ['\n'] lines).head? = some c → c ≠ '\n') := by
  intro lines
  induction lines with
  | nil =>
    intro _
    refine ⟨fun h => absurd rfl h, ?_, ?_, ?_⟩
    · rfl
    · simp [List.intercalate]
    · simp [List.intercalate]
  | cons p rest ih =>
    intro hg
    have hp := hg p (List.mem_cons_self p rest)
    cases rest with
    | nil =>
      rw [intercalate_single]
      refine ⟨fun _ => hp.1, ?_, ?_, ?_⟩
      · have h0 := hasNN_free_append p hp.2 [] rfl
        simpa using h0
      · intro h
        exact hp.2 '\n' (List.mem_of_mem_getLast? h) rfl
      · intro c hc
        exact hp.2 c (List.mem_of_mem_head? hc)
    | cons q rest2 =>
      obtain ⟨hT0, hTnn, hTlast, hThead⟩ := ih (fun r hr => hg r (List.mem_cons_of_mem p hr))
      have hq := hg q (List.mem_cons_of_mem p (List.mem_cons_self q rest2))
      have hTne : List.intercalate ['\n'] (q :: rest2) ≠ [] := hT0 (by simp)
      rw [intercalate_cons2]
      have hshape : p ++ ['\n'] ++ List.intercalate ['\n'] (q :: rest2) =
          p ++ '\n' :: List.intercalate ['\n'] (q :: rest2) := by simp
      rw [hshape]
      have hnlT : hasNN ('\n' :: List.intercalate ['\n'] (q :: rest2)) = false := by
        cases hT : List.intercalate ['\n'] (q :: rest2) with
        | nil => rfl
        | cons c r =>
          have hc : c ≠ '\n' := hThead c (by rw [hT]; rfl)
          simp only [hasNN, Bool.or_eq_false_iff]
          constructor
          · simp [hc]
          · rw [← hT]
            exact hTnn
      refine ⟨fun _ => by simp [hp.1], ?_, ?_, ?_⟩
      · exact hasNN_free_append p hp.2 _ hnlT
      · rw [List.getLast?_append_of_ne_nil _ (by simp)]
        cases hT : List.intercalate ['\n'] (q :: rest2) with
        | nil => exact absurd hT hTne
        | cons c r =>
          rw [List.getLast?_cons_cons]
          rw [hT] at hTlast
          exact hTlast
      · intro c hc
        cases hpl : p with
        | nil => exact absurd hpl hp.1
        | cons a p2 =>
          rw [hpl] at hc
          simp only [List.cons_append, List.head?_cons, Option.some.injEq] at hc
          subst hc
          exact hp.2 a (by rw [hpl]; exact List.mem_cons_self a p2)
/-- Inversion of `mapM` over `Except`: success gives one output per input,
each produced by a successful call on some input element. -/
theorem exceptMapM_ok {α β : Type} (f : α → Except PyExc β) :
    ∀ (l : List α) (ys : List β), l.mapM f = Except.ok ys →
      ys.length = l.length ∧ ∀ y ∈ ys, ∃ x ∈ l, f x = Except.ok y := by
  intro l
  induction l with
  | nil =>
    intro ys h
    rw [List.mapM_nil] at h
    have h2 : Except.ok ([] : List β) = Except.ok ys := h
    injection h2 with h3
    rw [← h3]
    exact ⟨rfl, fun y hy => absurd hy (List.not_mem_nil y)⟩
  | cons a as ih =>
    intro ys h
    rw [List.mapM_cons] at h
    cases hfa : f a with
    | error e =>
      rw [hfa] at h
      have h2 : (Except.error e : Except PyExc (List β)) = Except.ok ys := h
      injection h2
    | ok b =>
      rw [hfa] at h
      cases hrest : as.mapM f with
      | error e =>
        rw [hrest] at h
        have h2 : (Except.error e : Except PyExc (List β)) = Except.ok ys := h
        injection h2
      | ok bs =>
        rw [hrest] at h
        have h2 : Except.ok (b :: bs) = Except.ok ys := h
        injection h2 with h3
        obtain ⟨h4, h5⟩ := ih bs hrest
        rw [← h3]
        refine ⟨by simp [h4], ?_⟩
        intro y hy
        rcases List.mem_cons.1 hy with rfl | hy2
        · exact ⟨a, List.mem_cons_self a as, hfa⟩
        · obtain ⟨x, hx, hfx⟩ := h5 y hy2
          exact ⟨x, List.mem_cons_of_mem a hx, hfx⟩
/-- Lines produced by `TextWrapper.wrap` in the driver's configuration are
non-empty and newline-free (whitespace replacement removes newlines before
splitting). -/
theorem wrapperWrap_lines_good (W : Int) (blw : Bool) (t : Str) (ls : List Str)
    (h : wrapperWrap (mkFormatter W blw) t = Except.ok ls) :
    ∀ l ∈ ls, l ≠ [] ∧ ∀ c ∈ l, c ≠ '\n' := by
  have hfse : (mkFormatter W blw).fixSentenceEndings = false := rfl
  simp only [wrapperWrap, hfse, Bool.false_eq_true, if_false] at h
  unfold wrapChunksE at h
  by_cases hW0 : (mkFormatter W blw).width ≤ 0
  · rw [if_pos hW0] at h
    simp at h
  · rw [if_neg hW0] at h
    have hml : (mkFormatter W blw).maxLines = none := rfl
    rw [hml] at h
    simp only [Except.ok.injEq] at h
    intro l hl
    rw [← h] at hl
    have hbound := wrapLoop_good (mkFormatter W blw) rfl rfl (by omega) rfl rfl
      (fun s => s ≠ [] ∧ ∀ c ∈ s, c ≠ '\n')
      (fun x hx => hx.1)
      (fun x hx k hk => ⟨by
          intro h0
          have hlen := congrArg List.length h0
          simp only [List.length_drop, List.length_nil] at hlen
          omega,
        fun c hc => hx.2 c (List.drop_subset k x hc)⟩)
      (twSplit (mkFormatter W blw) (mungeWhitespace (mkFormatter W blw) t))
      _ _ []
      (fun x hx => ⟨(twSplit_sound (mkFormatter W blw) _ x hx).1,
        fun c hc => mungeWhitespace_no_newline (mkFormatter W blw) rfl t c
          ((twSplit_sound (mkFormatter W blw) _ x hx).2 c hc)⟩)
      (fun _ x hx => hx)
      (by simp)
      l hl
    refine ⟨hbound.1, ?_⟩
    intro c hc
    obtain ⟨y, hy, hcy⟩ := hbound.2.1 c hc
    exact hy.2 c hcy

/-- `TextFormatter.fill` output in the driver's configuration contains no
blank-line separator and does not end in a newline. -/
theorem tfFill_good (W : Int) (blw : Bool) (t p : Str)
    (h : tfFill (mkFormatter W blw) t = Except.ok p) :
    hasNN p = false ∧ p.getLast? ≠ some '\n' := by
  unfold tfFill at h
  by_cases he : (pyStrip t).isEmpty = true
  · rw [if_pos he] at h
    injection h with h2
    rw [← h2]
    exact ⟨rfl, by simp⟩
  · rw [if_neg he] at h
    unfold wrapperFill at h
    cases hw : wrapperWrap (mkFormatter W blw) t with
    | error e =>
      rw [hw] at h
      simp [Except.map] at h
    | ok ls =>
      rw [hw] at h
      simp only [Except.map, Except.ok.injEq] at h
      have hl := wrapperWrap_lines_good W blw t ls hw
      obtain ⟨_, hNN, hlast, _⟩ := intercalate_nl_good ls hl
      rw [← h]
      exact ⟨hNN, hlast⟩

/-- Every paragraph processed by `format_paragraphs` yields a piece with no
blank-line separator inside and no trailing newline. -/
theorem formatPara_good (W : Int) (blw : Bool) (x p : Str)
    (h : formatPara (mkFormatter W blw) x = Except.ok p) :
    hasNN p = false ∧ p.getLast? ≠ some '\n' := by
  unfold formatPara at h
  by_cases hb : (!(pyStrip x).isEmpty) = true
  · rw [if_pos hb] at h
    exact tfFill_good W blw (pyStrip x) p h
  · rw [if_neg hb] at h
    injection h with h2
    rw [← h2]
    exact ⟨rfl, by simp⟩

/-- C5: `format_paragraphs` preserves the paragraph count — splitting its
output on the blank-line separator `"\n\n"` yields exactly as many pieces
as splitting its input. -/
theorem C5_paragraph_count (W : Int) (blw : Bool) (text out : Str)
    (hok : tfFormatParagraphs (mkFormatter W blw) text = Except.ok out) :
    (pySplitOn ['\n', '\n'] out).length = (pySplitOn ['\n', '\n'] text).length := by
  unfold tfFormatParagraphs at hok
  cases hm : (pySplitOn ['\n', '\n'] text).mapM (formatPara (mkFormatter W blw)) with
  | error e =>
    rw [hm] at hok
    have h2 : (Except.error e : Except PyExc Str) = Except.ok out := hok
    injection h2
  | ok parts =>
    rw [hm] at hok
    have h2 : Except.ok (List.intercalate ['\n', '\n'] parts) = Except.ok out := hok
    injection h2 with h3
    obtain ⟨hlen, hmem⟩ := exceptMapM_ok (formatPara (mkFormatter W blw)) _ parts hm
    have hgood : ∀ p ∈ parts, hasNN p = false ∧ p.getLast? ≠ some '\n' := by
      intro p hp
      obtain ⟨x, _, hfx⟩ := hmem p hp
      exact formatPara_good W blw x p hfx
    have hne : parts ≠ [] := by
      intro h0
      rw [h0] at hlen
      have hne2 := pySplitOn_ne_nil ['\n', '\n'] text
      simp only [List.length_nil] at hlen
      exact hne2 (List.length_eq_zero.1 hlen.symm)
    rw [← h3, pySplitOn_nn_intercalate parts hne hgood, hlen]

theorem C5_witness :
    tfFormatParagraphs (mkFormatter 5 true) ("a  b\n\n\nc\n\nd d d".toList) =
      Except.ok ("a  b\n\nc\n\nd d d".toList) ∧
    (pySplitOn ['\n', '\n'] ("a  b\n\nc\n\nd d d".toList)).length =
      (pySplitOn ['\n', '\n'] ("a  b\n\n\nc\n\nd d d".toList)).length :=
  ⟨by decide, C5_paragraph_count 5 true ("a  b\n\n\nc\n\nd d d".toList)
    ("a  b\n\nc\n\nd d d".toList) (by decide)⟩
